import Mathlib

/-!
Verification development for the lazy macro-expansion engine of the ion-rust
repository (struct expansion state machine, macro evaluator boundary, value
reference equality, raw binary sequence iteration).

The definitions below are a shallow embedding of the code in
`src/lazy/expanded/struct.rs`, `src/lazy/value_ref.rs`,
`src/lazy/raw_value_ref.rs` and `src/lazy/binary/raw/v1_1/sequence.rs`.
Collaborator components that those files use but whose sources are not part
of the provided tree (the `MacroEvaluator`, compiled templates, and the
binary `ImmutableBuffer`) are modelled from the specification; each such
definition carries a doc comment starting with "Modelled from the spec:".

Field names are modelled as plain strings (symbol-table resolution is a
collaborator concern), and scalar values are modelled as integers and
symbols; only their struct/non-struct distinction matters to the expansion
engine.
-/

namespace IonRust

/-! ## Deep syntax: values, struct sources, field expressions

`Value` plays the role of a fully resolved `LazyExpandedValue` /
`ExpandedValueRef`: either a scalar or a struct handle carrying an
`ExpandedStructSource` (struct.rs lines 139-151). `ValueExpr` and
`FieldExpr` mirror the enums of the same names in
`macro_evaluator.rs` / `struct.rs` (lines 27-32). `MacroInvocation`
covers the invocations exercised by the specification's claims: the
system macros `values`, `make_struct`, `make_field`, and a compiled
template macro with a fixed body of value expressions. -/

mutual
inductive Value where
  | int : Int → Value
  | sym : String → Value
  | strukt : ExpandedStructSource → Value

/-- The four struct sources of `ExpandedStructSource` (struct.rs 139-151):
a raw value literal, a template-backed struct, a struct produced by
`make_struct` (holding its remaining argument expressions), and a
single-field struct produced by `make_field`. -/
inductive ExpandedStructSource where
  | ValueLiteral : List FieldExpr → ExpandedStructSource
  | Template : List FieldExpr → ExpandedStructSource
  | MakeStruct : List ValueExpr → ExpandedStructSource
  | MakeField : String → Value → ExpandedStructSource

inductive ValueExpr where
  | ValueLiteral : Value → ValueExpr
  | MacroInvocation : MacroInvocation → ValueExpr

inductive MacroInvocation where
  | Values : List ValueExpr → MacroInvocation
  | MakeStruct : List ValueExpr → MacroInvocation
  | MakeField : String → Value → MacroInvocation
  | Template : List ValueExpr → MacroInvocation

/-- `FieldExpr` (struct.rs 27-32): an ordinary name/value field, a field
whose name is paired with a macro invocation in value position, or a macro
invocation occupying field-name position. -/
inductive FieldExpr where
  | NameValue : String → Value → FieldExpr
  | NameMacro : String → MacroInvocation → FieldExpr
  | EExp : MacroInvocation → FieldExpr
end

/-- An emitted struct field: the payload of a `LazyExpandedField`. -/
abbrev Field := String × Value

/-! ## The macro evaluator boundary

`macro_evaluator.rs` is not part of the provided sources; the evaluator is
modelled from §4.1 of the spec: a LIFO stack of expansion frames, where each
frame holds the remaining value expressions of one expansion. -/

/-- Modelled from the spec: the `MacroEvaluator`, a LIFO stack of expansion
frames; each frame is the list of value expressions its expansion has not
yet produced (§4.1, §3 "ExpansionFrame"). -/
abbrev MacroEvaluator := List (List ValueExpr)

/-- Modelled from the spec: `MacroExpr::expand`, turning an invocation into
the ordered expressions of its expansion. `values` passes its arguments
through; `make_struct` and `make_field` each produce a single constructed
struct handle (struct.rs 188-205 shows the corresponding constructors);
a template expands to its compiled body. -/
def expand : MacroInvocation → List ValueExpr
  | .Values args => args
  | .MakeStruct args => [.ValueLiteral (.strukt (.MakeStruct args))]
  | .MakeField n v => [.ValueLiteral (.strukt (.MakeField n v))]
  | .Template body => body

/-- Modelled from the spec: `ExpansionAnalysis::must_produce_exactly_one_value`
(§4.1): statically true for `make_struct` and `make_field` (each constructs
exactly one struct) and false for the variadic `values` and for general
template bodies. -/
def mustProduceExactlyOneValue : MacroInvocation → Bool
  | .Values _ => false
  | .MakeStruct _ => true
  | .MakeField _ _ => true
  | .Template _ => false

/-- Modelled from the spec: `MacroExpansion::expand_singleton`, used only for
invocations whose analysis guarantees exactly one value; it evaluates the
expansion in place to that single value. -/
def expandSingleton (m : MacroInvocation) : Except String Value :=
  match expand m with
  | [.ValueLiteral v] => .ok v
  | _ => .error "expansion did not produce exactly one value"

/-- Pops the exhausted frames sitting on top of the evaluator stack, so that
`MacroEvaluator` emptiness reflects whether any expansion is still in
progress (spec §4.1: a frame is popped when it reports no more values). -/
def dropEmptyFrames : MacroEvaluator → MacroEvaluator
  | [] => []
  | [] :: rest => dropEmptyFrames rest
  | (e :: es) :: rest => (e :: es) :: rest

/-- Modelled from the spec: `MacroEvaluator::next` (§4.1): pulls the next
value across the whole stack, popping exhausted frames and recursing into
macro invocations by pushing their expansions and retrying; returns `none`
only when the stack is empty. The `Nat` argument is recursion fuel (the
real evaluator can diverge on cyclic template definitions; spec §9);
a `none` outer result means the fuel ran out. -/
def evalNext : Nat → MacroEvaluator → Option (Option Value × MacroEvaluator)
  | 0, _ => none
  | _ + 1, [] => some (none, [])
  | f + 1, [] :: rest => evalNext f rest
  | _ + 1, (.ValueLiteral v :: es) :: rest => some (some v, dropEmptyFrames (es :: rest))
  | f + 1, (.MacroInvocation m :: es) :: rest => evalNext f (expand m :: es :: rest)

/-! ## The expanded struct iterator (struct.rs 343-651)

The iterator owns a source (`ExpandedStructIteratorSource`, struct.rs
343-367) and a state (`ExpandedStructIteratorState`, struct.rs 463-485).
The `MakeStruct` source and the `InliningAStruct` state both hold a nested
struct iterator, so the three types are mutually inductive. -/

mutual
inductive ExpandedStructIteratorSource where
  | ValueLiteral : MacroEvaluator → List FieldExpr → ExpandedStructIteratorSource
  | Template : MacroEvaluator → List FieldExpr → ExpandedStructIteratorSource
  | MakeField : Option (String × Value) → ExpandedStructIteratorSource
  | MakeStruct : MacroEvaluator → Option ExpandedStructIterator → List ValueExpr →
      ExpandedStructIteratorSource

inductive ExpandedStructIteratorState where
  | ReadingFieldFromSource : ExpandedStructIteratorState
  | ExpandingValueExpr : String → ExpandedStructIteratorState
  | InliningAStruct : ExpandedStructIterator → ExpandedStructIteratorState

inductive ExpandedStructIterator where
  | mk : ExpandedStructIteratorSource → ExpandedStructIteratorState →
      ExpandedStructIterator
end

namespace ExpandedStructIterator

def source : ExpandedStructIterator → ExpandedStructIteratorSource
  | .mk s _ => s

def state : ExpandedStructIterator → ExpandedStructIteratorState
  | .mk _ st => st

end ExpandedStructIterator

/-- `LazyExpandedStruct::iter` (struct.rs 221-267): builds a fresh iterator
for a struct source, giving it a fresh (empty) evaluator, initial state
`ReadingFieldFromSource`, and for `make_struct` no current child struct. -/
def mkIter : ExpandedStructSource → ExpandedStructIterator
  | .ValueLiteral fields => .mk (.ValueLiteral [] fields) .ReadingFieldFromSource
  | .Template fields => .mk (.Template [] fields) .ReadingFieldFromSource
  | .MakeStruct args => .mk (.MakeStruct [] none args) .ReadingFieldFromSource
  | .MakeField n v => .mk (.MakeField (some (n, v))) .ReadingFieldFromSource

/-- The observable outcome of one `next_field` call: a decoding error, the
exhausted terminal (`None` in Rust), or one emitted field; each outcome
carries the iterator as left behind by the call (the Rust code mutates the
iterator in place). -/
inductive NextOut where
  | err : String → ExpandedStructIterator → NextOut
  | done : ExpandedStructIterator → NextOut
  | field : String → Value → ExpandedStructIterator → NextOut

/-- `ExpandedStructIterator::next_field` (struct.rs 506-589) together with the
source dispatch `ExpandedStructIteratorSource::next_field` (370-389),
`next_field_from_make_struct` (391-440), `begin_expanding_field_macro`
(593-615) and `begin_inlining_struct_from_macro` (620-635), inlined into one
recursive function.

The `ip` flag selects whether the `must_produce_exactly_one_value` in-place
evaluation of `begin_expanding_field_macro` is used; the source code always
uses it (`ip = true`), while `ip = false` is the general push-a-frame path
the optimization claims to be equivalent to.

The `Nat` argument is fuel for the internal `loop` iterations and nested
iterator/evaluator recursion; `none` means the fuel ran out. -/
def nextFieldWith (ip : Bool) : Nat → ExpandedStructIterator → Option NextOut
  | 0, _ => none
  | f + 1, .mk src st =>
    match st with
    | .ReadingFieldFromSource =>
      match src with
      -- ExpandedStructIteratorSource::next_field, ValueLiteral branch: pull the
      -- next raw field expression, then run the state machine on it.
      | .ValueLiteral ev fields =>
        match fields with
        | [] => some (.done (.mk (.ValueLiteral ev []) .ReadingFieldFromSource))
        | .NameValue n v :: rest =>
          some (.field n v (.mk (.ValueLiteral ev rest) .ReadingFieldFromSource))
        | .NameMacro n m :: rest =>
          -- begin_expanding_field_macro (struct.rs 593-615)
          if ip && mustProduceExactlyOneValue m then
            match expandSingleton m with
            | .ok v => some (.field n v (.mk (.ValueLiteral ev rest) .ReadingFieldFromSource))
            | .error e => some (.err e (.mk (.ValueLiteral ev rest) .ReadingFieldFromSource))
          else
            nextFieldWith ip f (.mk (.ValueLiteral (expand m :: ev) rest) (.ExpandingValueExpr n))
        | .EExp m :: rest =>
          -- begin_inlining_struct_from_macro (struct.rs 620-635): push the
          -- expansion, pull the first struct via next_struct_from_macro.
          match evalNext f (expand m :: ev) with
          | none => none
          | some (none, ev') =>
            -- The invocation produced nothing: no state switch, keep reading.
            nextFieldWith ip f (.mk (.ValueLiteral ev' rest) .ReadingFieldFromSource)
          | some (some (.strukt s), ev') =>
            nextFieldWith ip f (.mk (.ValueLiteral ev' rest) (.InliningAStruct (mkIter s)))
          | some (some _, ev') =>
            some (.err "macros in field name position must produce structs"
              (.mk (.ValueLiteral ev' rest) .ReadingFieldFromSource))
      -- Template branch: identical state machine over the template's field
      -- expressions (struct.rs 373-375).
      | .Template ev fields =>
        match fields with
        | [] => some (.done (.mk (.Template ev []) .ReadingFieldFromSource))
        | .NameValue n v :: rest =>
          some (.field n v (.mk (.Template ev rest) .ReadingFieldFromSource))
        | .NameMacro n m :: rest =>
          if ip && mustProduceExactlyOneValue m then
            match expandSingleton m with
            | .ok v => some (.field n v (.mk (.Template ev rest) .ReadingFieldFromSource))
            | .error e => some (.err e (.mk (.Template ev rest) .ReadingFieldFromSource))
          else
            nextFieldWith ip f (.mk (.Template (expand m :: ev) rest) (.ExpandingValueExpr n))
        | .EExp m :: rest =>
          match evalNext f (expand m :: ev) with
          | none => none
          | some (none, ev') =>
            nextFieldWith ip f (.mk (.Template ev' rest) .ReadingFieldFromSource)
          | some (some (.strukt s), ev') =>
            nextFieldWith ip f (.mk (.Template ev' rest) (.InliningAStruct (mkIter s)))
          | some (some _, ev') =>
            some (.err "macros in field name position must produce structs"
              (.mk (.Template ev' rest) .ReadingFieldFromSource))
      -- MakeField branch (struct.rs 379-382): `maybe_field.take()`.
      | .MakeField opt =>
        match opt with
        | none => some (.done (.mk (.MakeField none) .ReadingFieldFromSource))
        | some (n, v) => some (.field n v (.mk (.MakeField none) .ReadingFieldFromSource))
      -- MakeStruct branch: next_field_from_make_struct (struct.rs 391-440).
      | .MakeStruct ev cur args =>
        match cur with
        | some child =>
          -- If we're already traversing a struct, see if it has fields left.
          match nextFieldWith ip f child with
          | none => none
          | some (.field n v child') =>
            some (.field n v (.mk (.MakeStruct ev (some child') args) .ReadingFieldFromSource))
          | some (.err e child') =>
            some (.err e (.mk (.MakeStruct ev (some child') args) .ReadingFieldFromSource))
          | some (.done _) =>
            -- Iterator exhausted: continue on to the next struct.
            nextFieldWith ip f (.mk (.MakeStruct ev none args) .ReadingFieldFromSource)
        | none =>
          -- See if the evaluator has an expansion in progress.
          match evalNext f ev with
          | none => none
          | some (some v, ev') =>
            match v with
            | .strukt s =>
              nextFieldWith ip f
                (.mk (.MakeStruct ev' (some (mkIter s)) args) .ReadingFieldFromSource)
            | _ =>
              some (.err "make_struct only accepts structs"
                (.mk (.MakeStruct ev' none args) .ReadingFieldFromSource))
          | some (none, ev') =>
            -- Nothing from the evaluator: take the next argument expression.
            match args with
            | [] => some (.done (.mk (.MakeStruct ev' none []) .ReadingFieldFromSource))
            | .ValueLiteral v :: args' =>
              match v with
              | .strukt s =>
                nextFieldWith ip f
                  (.mk (.MakeStruct ev' (some (mkIter s)) args') .ReadingFieldFromSource)
              | _ =>
                some (.err "make_struct only accepts structs"
                  (.mk (.MakeStruct ev' none args') .ReadingFieldFromSource))
            | .MacroInvocation m :: args' =>
              -- Push the invocation and return to the top of the loop.
              nextFieldWith ip f
                (.mk (.MakeStruct (expand m :: ev') none args') .ReadingFieldFromSource)
    | .ExpandingValueExpr n =>
      -- struct.rs 565-586: pull the next value from the source's evaluator.
      match src with
      | .ValueLiteral ev fields =>
        match evalNext f ev with
        | none => none
        | some (some v, ev') =>
          some (.field n v (.mk (.ValueLiteral ev' fields)
            (if ev'.isEmpty then .ReadingFieldFromSource else .ExpandingValueExpr n)))
        | some (none, ev') =>
          nextFieldWith ip f (.mk (.ValueLiteral ev' fields) .ReadingFieldFromSource)
      | .Template ev fields =>
        match evalNext f ev with
        | none => none
        | some (some v, ev') =>
          some (.field n v (.mk (.Template ev' fields)
            (if ev'.isEmpty then .ReadingFieldFromSource else .ExpandingValueExpr n)))
        | some (none, ev') =>
          nextFieldWith ip f (.mk (.Template ev' fields) .ReadingFieldFromSource)
      -- `make_field` and `make_struct` sources never reach this state: their
      -- source-level field expressions are always name/value pairs.
      | s => some (.err "unreachable: no evaluator for this source" (.mk s st))
    | .InliningAStruct child =>
      -- struct.rs 552-560: pull another field from the struct being inlined;
      -- when it is exhausted, switch back to reading from the source.
      match nextFieldWith ip f child with
      | none => none
      | some (.field n v child') =>
        some (.field n v (.mk src (.InliningAStruct child')))
      | some (.err e child') =>
        some (.err e (.mk src (.InliningAStruct child')))
      | some (.done _) =>
        nextFieldWith ip f (.mk src .ReadingFieldFromSource)

/-- The iterator exactly as the source code runs it: the in-place
single-value optimization enabled. -/
def nextField : Nat → ExpandedStructIterator → Option NextOut :=
  nextFieldWith true

/-- Repeatedly calls `next_field`, collecting the emitted fields, until the
iterator reports the terminal `None` (giving the collected list) or an
error. Outer `none` means the fuel ran out. -/
def drainWith (ip : Bool) : Nat → ExpandedStructIterator → Option (Except String (List Field))
  | 0, _ => none
  | f + 1, it =>
    match nextFieldWith ip (f + 1) it with
    | none => none
    | some (.done _) => some (.ok [])
    | some (.err e _) => some (.error e)
    | some (.field n v it') =>
      match drainWith ip f it' with
      | none => none
      | some (.error e) => some (.error e)
      | some (.ok l) => some (.ok ((n, v) :: l))

def drain : Nat → ExpandedStructIterator → Option (Except String (List Field)) :=
  drainWith true

/-! ## Denotation of expansions

`exprsValues` computes the flat list of values an expansion stream denotes;
it is the specification-level meaning of repeatedly polling the evaluator
(§4.1: `values` flattens its arguments, `make_struct`/`make_field` each
produce one constructed struct, a template produces its body's stream). -/

mutual
def exprValues : ValueExpr → List Value
  | .ValueLiteral v => [v]
  | .MacroInvocation m => invValues m

def invValues : MacroInvocation → List Value
  | .Values args => exprsValues args
  | .MakeStruct args => [.strukt (.MakeStruct args)]
  | .MakeField n v => [.strukt (.MakeField n v)]
  | .Template body => exprsValues body

def exprsValues : List ValueExpr → List Value
  | [] => []
  | e :: es => exprValues e ++ exprsValues es
end

/-- The flat list of values still pending on an evaluator stack, top frame
first. -/
def stackValues : MacroEvaluator → List Value
  | [] => []
  | fr :: rest => exprsValues fr ++ stackValues rest

/-! Weight functions giving a measure that strictly decreases along
`evalNext`'s internal transitions; used for induction over evaluator runs. -/

mutual
def weightExpr : ValueExpr → Nat
  | .ValueLiteral _ => 1
  | .MacroInvocation m => 1 + weightInv m

def weightInv : MacroInvocation → Nat
  | .Values args => 1 + weightExprs args
  | .MakeStruct _ => 2
  | .MakeField _ _ => 2
  | .Template body => 1 + weightExprs body

def weightExprs : List ValueExpr → Nat
  | [] => 0
  | e :: es => weightExpr e + weightExprs es
end

def weightStack : MacroEvaluator → Nat
  | [] => 0
  | fr :: rest => (1 + weightExprs fr) + weightStack rest

/-- The iterator, polled repeatedly with sufficient fuel, terminates with
result `r` (all emitted fields in order, or the first error). -/
def DrainsTo (ip : Bool) (it : ExpandedStructIterator) (r : Except String (List Field)) : Prop :=
  ∃ f, drainWith ip f it = some r

/-- The field expressions of a list of plain name/value fields. -/
def nvFields (l : List Field) : List FieldExpr :=
  l.map fun p => .NameValue p.1 p.2

/-- Whether a resolved value is a struct. -/
def Value.isStrukt : Value → Bool
  | .strukt _ => true
  | _ => false


/-- True when no field expression of the list is a macro in field-name
position. -/
def noEExpFields (l : List FieldExpr) : Bool :=
  l.all fun fe =>
    match fe with
    | .EExp _ => false
    | _ => true

/-! ## Struct field lookup (`LazyExpandedStruct::find`, struct.rs 282-328) -/

/-- Modelled from the spec: looking up a name in a template struct's
compile-time field index (`TemplateStructIndex`, §3) returns the value
expressions of the fields carrying that name, in body order; fields whose
name position is a macro do not contribute index entries
(`template.rs` is not under `src/`). -/
def templateIndexGet (fields : List FieldExpr) (name : String) : List ValueExpr :=
  fields.filterMap fun fe =>
    match fe with
    | .NameValue n v => if n = name then some (.ValueLiteral v) else none
    | .NameMacro n m => if n = name then some (.MacroInvocation m) else none
    | .EExp _ => none

/-- The linear-scan branch of `LazyExpandedStruct::find` (struct.rs 317-326):
iterate the expanded fields, stopping at the first whose name matches. -/
def findScan : Nat → ExpandedStructIterator → String → Option (Except String (Option Value))
  | 0, _, _ => none
  | f + 1, it, name =>
    match nextField (f + 1) it with
    | none => none
    | some (.done _) => some (.ok none)
    | some (.err e _) => some (.error e)
    | some (.field n v it') =>
      if n = name then some (.ok (some v)) else findScan f it' name

/-- `LazyExpandedStruct::find` (struct.rs 282-328): template-backed structs
consult the compiled field index and evaluate only the first candidate
expression (one `evaluator.next` call for a macro candidate, answering
`none` immediately when the name is absent from the index); every other
struct source falls back to a linear scan over the expanded-field iterator. -/
def find (fuel : Nat) (s : ExpandedStructSource) (name : String) :
    Option (Except String (Option Value)) :=
  match s with
  | .Template fields =>
    match templateIndexGet fields name with
    | [] => some (.ok none)
    | .ValueLiteral v :: _ => some (.ok (some v))
    | .MacroInvocation m :: _ =>
      match evalNext fuel [expand m] with
      | none => none
      | some (ov, _) => some (.ok ov)
  | s => findScan fuel (mkIter s) name

/-- First field value carrying `name`: the specification-side description of
a linear scan over plain fields. -/
def firstMatch (l : List Field) (name : String) : Option Value :=
  (l.find? fun p => p.1 = name).map Prod.snd

/-! ## Concrete structs used by the scenario claims -/

def dogStruct : Value := .strukt (.ValueLiteral [.NameValue "dog" (.int 1)])

def catStruct : Value := .strukt (.ValueLiteral [.NameValue "cat" (.int 2)])

/-- The struct literal whose only raw field expression is the e-expression
invoking values on two struct literals: a macro in field-name position whose
expansion holds two structs. -/
def twoStructSplice : ExpandedStructSource :=
  .ValueLiteral [.EExp (.Values [.ValueLiteral dogStruct, .ValueLiteral catStruct])]

/-- The struct of spec scenario 1 exactly as written, with the make_struct
invocation given the bare arguments of the scenario text: the symbol b, the
int 2, the symbol c and the int 3. -/
def makeStructBareArgs : ExpandedStructSource :=
  .ValueLiteral
    [.NameValue "a" (.int 1),
     .EExp (.MakeStruct
       [.ValueLiteral (.sym "b"), .ValueLiteral (.int 2),
        .ValueLiteral (.sym "c"), .ValueLiteral (.int 3)]),
     .NameValue "d" (.int 4)]

/-- Scenario 1 with struct-valued arguments: the parent struct has fields
a and d around a make_struct invocation whose two arguments are the
one-field struct literals carrying b and c. -/
def makeStructStructArgs : ExpandedStructSource :=
  .ValueLiteral
    [.NameValue "a" (.int 1),
     .EExp (.MakeStruct
       [.ValueLiteral (.strukt (.ValueLiteral [.NameValue "b" (.int 2)])),
        .ValueLiteral (.strukt (.ValueLiteral [.NameValue "c" (.int 3)]))]),
     .NameValue "d" (.int 4)]

/-- The template macro three_values, compiled from its body: one invocation
of values on the literals 1, 2, 3. -/
def threeValues : MacroInvocation :=
  .Template [.MacroInvocation (.Values
    [.ValueLiteral (.int 1), .ValueLiteral (.int 2), .ValueLiteral (.int 3)])]

/-- A struct whose first raw field is the two-struct splice above and whose
second is a name/macro field: after the field-name-position macro's first
struct is inlined, its second struct is still pending on the iterator's
evaluator when the bar field is read. -/
def spliceThenFieldMacro : ExpandedStructSource :=
  .ValueLiteral
    [.EExp (.Values [.ValueLiteral dogStruct, .ValueLiteral catStruct]),
     .NameMacro "bar" (.MakeField "x" (.int 5))]

/-! ## The raw binary sequence iterator (sequence.rs 141-200)

`ImmutableBuffer` and its parsing functions live in `immutable_buffer.rs`,
which is not under `src/`; the buffer is modelled from the spec as a
tokenized view of the remaining input: each token is an already-delimited
encoded value expression (with its byte length), a delimited-container
close marker, or a malformed region. -/

/-- An encoded value expression as surfaced by the raw reader: an identity
for the expression plus the byte length of its range (sequence.rs 196 uses
that length as the distance to skip). -/
structure EncodedExpr where
  exprId : Nat
  len : Nat
deriving DecidableEq

inductive SeqToken where
  | value : EncodedExpr → SeqToken
  | closeDelim : SeqToken
  | malformed : SeqToken
deriving DecidableEq

def SeqToken.len : SeqToken → Nat
  | .value e => e.len
  | .closeDelim => 1
  | .malformed => 1

/-- Byte length of the remaining tokens. -/
def totalLen (ts : List SeqToken) : Nat := (ts.map SeqToken.len).sum

/-- Modelled from the spec: `ImmutableBuffer::consume` at token granularity —
drop `n` bytes from the front (whole tokens; clamped at the end of the
remaining input). -/
def consumeTokens : Nat → List SeqToken → List SeqToken
  | 0, ts => ts
  | _ + 1, [] => []
  | n + 1, t :: ts => if t.len ≤ n + 1 then consumeTokens (n + 1 - t.len) ts else t :: ts

/-- Modelled from the spec: an `ImmutableBuffer` — the remaining tokens plus
the absolute stream offset of its first byte. -/
structure SeqBuffer where
  offset : Nat
  tokens : List SeqToken
deriving DecidableEq

def SeqBuffer.consume (b : SeqBuffer) (n : Nat) : SeqBuffer :=
  { offset := b.offset + (totalLen b.tokens - totalLen (consumeTokens n b.tokens)),
    tokens := consumeTokens n b.tokens }

/-- Modelled from the spec: `ImmutableBuffer::peek_opcode` — whether the next
opcode closes a delimited container; an empty or malformed buffer is an
error. -/
def peekOpcodeIsClose : List SeqToken → Except String Bool
  | [] => .error "expected an opcode but the buffer was empty"
  | .closeDelim :: _ => .ok true
  | .malformed :: _ => .error "invalid opcode"
  | .value _ :: _ => .ok false

/-- Modelled from the spec: `ImmutableBuffer::peek_sequence_value_expr` —
the next value expression if one is available, `none` at the end of the
buffer or at a delimited-container close. -/
def peekSequenceValueExpr : List SeqToken → Except String (Option EncodedExpr)
  | [] => .ok none
  | .value e :: _ => .ok (some e)
  | .closeDelim :: _ => .ok none
  | .malformed :: _ => .error "invalid opcode"

/-- The state of `RawBinarySequenceIterator_1_1` (sequence.rs 141-145). -/
structure RawBinarySequenceIterator where
  source : SeqBuffer
  bytesToSkip : Nat
  delimitedOffsets : Option (List Nat)
deriving DecidableEq

/-- `RawBinarySequenceIterator_1_1::next` (sequence.rs 160-199), returning
the yielded item (if any) together with the iterator state the call leaves
behind. In the delimited branch the consumed view is a local (`input` in the
Rust); the stored source is not advanced, and only a successful yield drops
the first recorded offset. In the non-delimited branch the source is
advanced by `bytesToSkip` before peeking, and a successful yield records the
new item's length as the next distance to skip. -/
def seqNext (it : RawBinarySequenceIterator) :
    Option (Except String EncodedExpr) × RawBinarySequenceIterator :=
  match it.delimitedOffsets with
  | some offsets =>
    if offsets.length ≤ 1 then (none, it)
    else
      match offsets with
      | [] => (none, it)
      | offset :: restOffsets =>
        let input := it.source.consume (offset - it.source.offset)
        match peekOpcodeIsClose input.tokens with
        | .ok true => (none, it)
        | .ok false =>
          match peekSequenceValueExpr input.tokens with
          | .ok (some e) =>
            (some (.ok e), { it with delimitedOffsets := some restOffsets })
          | .ok none => (none, it)
          | .error err => (some (.error err), it)
        | .error err => (some (.error err), it)
  | none =>
    let source' := it.source.consume it.bytesToSkip
    match peekSequenceValueExpr source'.tokens with
    | .ok none => (none, { it with source := source' })
    | .error err => (some (.error err), { it with source := source' })
    | .ok (some e) =>
      (some (.ok e),
        { source := source', bytesToSkip := e.len, delimitedOffsets := none })

/-- True when the buffer holds no delimited-container close markers, as is
the case for the body of a length-prefixed (non-delimited) container. -/
def noCloseTokens (ts : List SeqToken) : Bool :=
  ts.all fun t =>
    match t with
    | .closeDelim => false
    | _ => true

/-! ## `ValueRef` and `RawValueRef` equality (value_ref.rs 40-61,
raw_value_ref.rs 36-55)

The scalar payloads (floats, decimals, timestamps, text and lob references,
symbol references) and the lazy container handles are types of other
modules; the model is parametric in them and in their `PartialEq`
implementations, to which the `ValueRef` implementation delegates. -/

structure ScalarModel where
  FloatT : Type
  DecimalT : Type
  TimestampT : Type
  StrT : Type
  SymT : Type
  RawSymT : Type
  BytesT : Type
  SExpT : Type
  ListT : Type
  StructT : Type
  beqFloat : FloatT → FloatT → Bool
  beqDecimal : DecimalT → DecimalT → Bool
  beqTimestamp : TimestampT → TimestampT → Bool
  beqStr : StrT → StrT → Bool
  beqSym : SymT → SymT → Bool
  beqRawSym : RawSymT → RawSymT → Bool
  beqBytes : BytesT → BytesT → Bool

inductive IonType where
  | Null | Bool | Int | Float | Decimal | Timestamp | String | Symbol
  | Blob | Clob | SExp | List | Struct
deriving DecidableEq

/-- `ValueRef` (value_ref.rs 24-38); constructor names carry a `V` suffix to
avoid clashing with the payload type names. -/
inductive ValueRef (M : ScalarModel) where
  | NullV : IonType → ValueRef M
  | BoolV : Bool → ValueRef M
  | IntV : Int → ValueRef M
  | FloatV : M.FloatT → ValueRef M
  | DecimalV : M.DecimalT → ValueRef M
  | TimestampV : M.TimestampT → ValueRef M
  | StringV : M.StrT → ValueRef M
  | SymbolV : M.SymT → ValueRef M
  | BlobV : M.BytesT → ValueRef M
  | ClobV : M.BytesT → ValueRef M
  | SExpV : M.SExpT → ValueRef M
  | ListV : M.ListT → ValueRef M
  | StructV : M.StructT → ValueRef M

/-- The `PartialEq` implementation for `ValueRef` (value_ref.rs 40-61):
scalar variants of the same kind compare their payloads; every other
pairing — in particular any pairing that involves a container — falls to
the catch-all arm and is `false`. -/
def ValueRef.eq {M : ScalarModel} : ValueRef M → ValueRef M → Bool
  | .NullV i1, .NullV i2 => i1 == i2
  | .BoolV b1, .BoolV b2 => b1 == b2
  | .IntV i1, .IntV i2 => i1 == i2
  | .FloatV f1, .FloatV f2 => M.beqFloat f1 f2
  | .DecimalV d1, .DecimalV d2 => M.beqDecimal d1 d2
  | .TimestampV t1, .TimestampV t2 => M.beqTimestamp t1 t2
  | .StringV s1, .StringV s2 => M.beqStr s1 s2
  | .SymbolV s1, .SymbolV s2 => M.beqSym s1 s2
  | .BlobV b1, .BlobV b2 => M.beqBytes b1 b2
  | .ClobV c1, .ClobV c2 => M.beqBytes c1 c2
  | _, _ => false

/-- Whether a `ValueRef` is one of the container variants. -/
def ValueRef.isContainer {M : ScalarModel} : ValueRef M → Bool
  | .SExpV _ => true
  | .ListV _ => true
  | .StructV _ => true
  | _ => false

/-- `ValueRef::ion_type` (value_ref.rs 249-265). -/
def ValueRef.ionType {M : ScalarModel} : ValueRef M → IonType
  | .NullV _ => .Null
  | .BoolV _ => .Bool
  | .IntV _ => .Int
  | .FloatV _ => .Float
  | .DecimalV _ => .Decimal
  | .TimestampV _ => .Timestamp
  | .StringV _ => .String
  | .SymbolV _ => .Symbol
  | .BlobV _ => .Blob
  | .ClobV _ => .Clob
  | .SExpV _ => .SExp
  | .ListV _ => .List
  | .StructV _ => .Struct

/-- `RawValueRef` (raw_value_ref.rs 19-33): as `ValueRef` but with an
unresolved symbol payload. -/
inductive RawValueRef (M : ScalarModel) where
  | NullV : IonType → RawValueRef M
  | BoolV : Bool → RawValueRef M
  | IntV : Int → RawValueRef M
  | FloatV : M.FloatT → RawValueRef M
  | DecimalV : M.DecimalT → RawValueRef M
  | TimestampV : M.TimestampT → RawValueRef M
  | StringV : M.StrT → RawValueRef M
  | SymbolV : M.RawSymT → RawValueRef M
  | BlobV : M.BytesT → RawValueRef M
  | ClobV : M.BytesT → RawValueRef M
  | SExpV : M.SExpT → RawValueRef M
  | ListV : M.ListT → RawValueRef M
  | StructV : M.StructT → RawValueRef M

/-- The `PartialEq` implementation for `RawValueRef` (raw_value_ref.rs
36-55). -/
def RawValueRef.eq {M : ScalarModel} : RawValueRef M → RawValueRef M → Bool
  | .NullV i1, .NullV i2 => i1 == i2
  | .BoolV b1, .BoolV b2 => b1 == b2
  | .IntV i1, .IntV i2 => i1 == i2
  | .FloatV f1, .FloatV f2 => M.beqFloat f1 f2
  | .DecimalV d1, .DecimalV d2 => M.beqDecimal d1 d2
  | .TimestampV t1, .TimestampV t2 => M.beqTimestamp t1 t2
  | .StringV s1, .StringV s2 => M.beqStr s1 s2
  | .SymbolV s1, .SymbolV s2 => M.beqRawSym s1 s2
  | .BlobV b1, .BlobV b2 => M.beqBytes b1 b2
  | .ClobV c1, .ClobV c2 => M.beqBytes c1 c2
  | _, _ => false

def RawValueRef.isContainer {M : ScalarModel} : RawValueRef M → Bool
  | .SExpV _ => true
  | .ListV _ => true
  | .StructV _ => true
  | _ => false

/-- A throwaway instantiation of the payload model, for exhibiting concrete
equalities. -/
def unitScalarModel : ScalarModel where
  FloatT := Unit
  DecimalT := Unit
  TimestampT := Unit
  StrT := Unit
  SymT := Unit
  RawSymT := Unit
  BytesT := Unit
  SExpT := Unit
  ListT := Unit
  StructT := Unit
  beqFloat := fun _ _ => true
  beqDecimal := fun _ _ => true
  beqTimestamp := fun _ _ => true
  beqStr := fun _ _ => true
  beqSym := fun _ _ => true
  beqRawSym := fun _ _ => true
  beqBytes := fun _ _ => true

/-! ## Basic facts about the evaluator -/

theorem exprsValues_expand (m : MacroInvocation) : exprsValues (expand m) = invValues m := by
  cases m <;> simp [expand, exprsValues, exprValues, invValues]

theorem weightExprs_expand (m : MacroInvocation) : weightExprs (expand m) < weightInv m := by
  cases m with
  | Values args => simp [expand, weightInv]
  | MakeStruct args => simp [expand, weightExprs, weightExpr, weightInv]
  | MakeField n v => simp [expand, weightExprs, weightExpr, weightInv]
  | Template body => simp [expand, weightInv]

theorem stackValues_dropEmptyFrames (ev : MacroEvaluator) :
    stackValues (dropEmptyFrames ev) = stackValues ev := by
  induction ev with
  | nil => rfl
  | cons fr rest ih =>
    cases fr with
    | nil =>
      simp only [dropEmptyFrames, stackValues, exprsValues, List.nil_append]
      exact ih
    | cons e es => rfl

theorem weightStack_dropEmptyFrames (ev : MacroEvaluator) :
    weightStack (dropEmptyFrames ev) ≤ weightStack ev := by
  induction ev with
  | nil => simp [dropEmptyFrames]
  | cons fr rest ih =>
    cases fr with
    | nil =>
      simp only [dropEmptyFrames]
      have h2 : weightStack rest ≤ weightStack ([] :: rest) := by
        simp [weightStack, weightExprs]
      exact le_trans ih h2
    | cons e es => simp [dropEmptyFrames]

theorem evalNext_mono {f : Nat} {ev : MacroEvaluator} {r} (h : evalNext f ev = some r) :
    evalNext (f + 1) ev = some r := by
  induction f generalizing ev with
  | zero => simp [evalNext] at h
  | succ f ih =>
    match ev with
    | [] => simpa [evalNext] using h
    | [] :: rest =>
      simp only [evalNext] at h ⊢
      exact ih h
    | (.ValueLiteral v :: es) :: rest => simpa [evalNext] using h
    | (.MacroInvocation m :: es) :: rest =>
      simp only [evalNext] at h ⊢
      exact ih h

theorem evalNext_mono_le {f g : Nat} {ev : MacroEvaluator} {r} (hf : evalNext f ev = some r)
    (hle : f ≤ g) : evalNext g ev = some r := by
  induction g with
  | zero =>
    have h0 : f = 0 := Nat.le_zero.mp hle
    subst h0; exact hf
  | succ g ih =>
    rcases Nat.lt_or_ge g f with h1 | h1
    · have h2 : f = g + 1 := by omega
      subst h2; exact hf
    · exact evalNext_mono (ih h1)

/-- When the evaluator reports that it is out of values, every frame has been
popped: the stack it leaves behind is empty. -/
theorem evalNext_none_nil {f : Nat} {ev ev' : MacroEvaluator}
    (h : evalNext f ev = some (none, ev')) : ev' = [] := by
  induction f generalizing ev with
  | zero => simp [evalNext] at h
  | succ f ih =>
    match ev with
    | [] => simp [evalNext] at h; exact h
    | [] :: rest => simp only [evalNext] at h; exact ih h
    | (.ValueLiteral v :: es) :: rest => simp [evalNext] at h
    | (.MacroInvocation m :: es) :: rest => simp only [evalNext] at h; exact ih h

/-- If no values are pending on the stack, the evaluator (given enough fuel)
reports exhaustion, with every frame popped. -/
theorem evalNext_of_stackValues_nil (ev : MacroEvaluator) (h : stackValues ev = []) :
    ∃ f, evalNext f ev = some (none, []) := by
  suffices H : ∀ W ev, weightStack ev ≤ W → stackValues ev = [] →
      ∃ f, evalNext f ev = some (none, []) from H (weightStack ev) ev le_rfl h
  intro W
  induction W with
  | zero =>
    intro ev hw _
    match ev with
    | [] => exact ⟨1, rfl⟩
    | fr :: rest => simp [weightStack] at hw
  | succ W ih =>
    intro ev hw h
    match ev with
    | [] => exact ⟨1, rfl⟩
    | [] :: rest =>
      have hw' : weightStack rest ≤ W := by simp [weightStack, weightExprs] at hw; omega
      have h' : stackValues rest = [] := by simpa [stackValues, exprsValues] using h
      obtain ⟨f, hf⟩ := ih rest hw' h'
      exact ⟨f + 1, by simpa [evalNext] using hf⟩
    | (.ValueLiteral v :: es) :: rest =>
      simp [stackValues, exprsValues, exprValues] at h
    | (.MacroInvocation m :: es) :: rest =>
      have hlt := weightExprs_expand m
      have hw' : weightStack (expand m :: es :: rest) ≤ W := by
        simp only [weightStack, weightExprs, weightExpr] at hw ⊢
        omega
      have h' : stackValues (expand m :: es :: rest) = [] := by
        simp only [stackValues, exprsValues, exprValues, List.append_assoc] at h ⊢
        simpa [exprsValues_expand] using h
      obtain ⟨f, hf⟩ := ih _ hw' h'
      exact ⟨f + 1, by simpa [evalNext] using hf⟩

/-- If a value is pending on the stack, the evaluator (given enough fuel)
produces exactly that value, leaving the rest pending on a lighter stack. -/
theorem evalNext_of_stackValues_cons (ev : MacroEvaluator) (v : Value) (vs : List Value)
    (h : stackValues ev = v :: vs) :
    ∃ f ev', evalNext f ev = some (some v, ev') ∧ stackValues ev' = vs ∧
      weightStack ev' < weightStack ev := by
  suffices H : ∀ W ev, weightStack ev ≤ W → stackValues ev = v :: vs →
      ∃ f ev', evalNext f ev = some (some v, ev') ∧ stackValues ev' = vs ∧
        weightStack ev' < weightStack ev from H (weightStack ev) ev le_rfl h
  intro W
  induction W with
  | zero =>
    intro ev hw hv
    match ev with
    | [] => simp [stackValues] at hv
    | fr :: rest => simp [weightStack] at hw
  | succ W ih =>
    intro ev hw hv
    match ev with
    | [] => simp [stackValues] at hv
    | [] :: rest =>
      have hw' : weightStack rest ≤ W := by simp [weightStack, weightExprs] at hw; omega
      have hv' : stackValues rest = v :: vs := by simpa [stackValues, exprsValues] using hv
      obtain ⟨f, ev', hf, hs, hlt⟩ := ih rest hw' hv'
      refine ⟨f + 1, ev', by simpa [evalNext] using hf, hs, ?_⟩
      calc weightStack ev' < weightStack rest := hlt
        _ ≤ weightStack ([] :: rest) := by simp [weightStack, weightExprs]
    | (.ValueLiteral w :: es) :: rest =>
      have hv' : w = v ∧ exprsValues es ++ stackValues rest = vs := by
        simpa [stackValues, exprsValues, exprValues] using hv
      refine ⟨1, dropEmptyFrames (es :: rest), ?_, ?_, ?_⟩
      · simp [evalNext, hv'.1]
      · rw [stackValues_dropEmptyFrames]
        simpa [stackValues] using hv'.2
      · have h1 := weightStack_dropEmptyFrames (es :: rest)
        simp only [weightStack, weightExprs, weightExpr] at h1 ⊢
        omega
    | (.MacroInvocation m :: es) :: rest =>
      have hlt := weightExprs_expand m
      have hw' : weightStack (expand m :: es :: rest) ≤ W := by
        simp only [weightStack, weightExprs, weightExpr] at hw ⊢
        omega
      have hv' : stackValues (expand m :: es :: rest) = v :: vs := by
        simp only [stackValues, exprsValues, exprValues, List.append_assoc] at hv ⊢
        simpa [exprsValues_expand] using hv
      obtain ⟨f, ev', hf, hs, hlt'⟩ := ih _ hw' hv'
      refine ⟨f + 1, ev', by simpa [evalNext] using hf, hs, ?_⟩
      have : weightStack (expand m :: es :: rest) < weightStack ((.MacroInvocation m :: es) :: rest) := by
        simp only [weightStack, weightExprs, weightExpr]
        omega
      omega

/-! ## Monotonicity of the struct iterator in its fuel -/

theorem nextFieldWith_mono {ip : Bool} :
    ∀ {f : Nat} {it : ExpandedStructIterator} {r : NextOut},
      nextFieldWith ip f it = some r → nextFieldWith ip (f + 1) it = some r := by
  intro f
  induction f with
  | zero => intro it r h; simp [nextFieldWith] at h
  | succ f ih =>
    intro it r h
    obtain ⟨src, st⟩ := it
    cases st with
    | ReadingFieldFromSource =>
      cases src with
      | ValueLiteral ev fields =>
        cases fields with
        | nil => simpa [nextFieldWith] using h
        | cons fe rest =>
          cases fe with
          | NameValue n v => simpa [nextFieldWith] using h
          | NameMacro n m =>
            simp only [nextFieldWith] at h ⊢
            by_cases hip : (ip && mustProduceExactlyOneValue m) = true
            · simp only [hip, if_true] at h ⊢; exact h
            · simp only [Bool.not_eq_true] at hip
              simp only [hip, Bool.false_eq_true, if_false] at h ⊢
              exact ih h
          | EExp m =>
            simp only [nextFieldWith] at h ⊢
            rcases hev : evalNext f (expand m :: ev) with _ | ⟨_ | v, ev'⟩
            · rw [hev] at h; cases h
            · rw [hev] at h; rw [evalNext_mono hev]; exact ih h
            · rw [hev] at h; rw [evalNext_mono hev]
              cases v with
              | strukt s => exact ih h
              | int i => exact h
              | sym s => exact h
      | Template ev fields =>
        cases fields with
        | nil => simpa [nextFieldWith] using h
        | cons fe rest =>
          cases fe with
          | NameValue n v => simpa [nextFieldWith] using h
          | NameMacro n m =>
            simp only [nextFieldWith] at h ⊢
            by_cases hip : (ip && mustProduceExactlyOneValue m) = true
            · simp only [hip, if_true] at h ⊢; exact h
            · simp only [Bool.not_eq_true] at hip
              simp only [hip, Bool.false_eq_true, if_false] at h ⊢
              exact ih h
          | EExp m =>
            simp only [nextFieldWith] at h ⊢
            rcases hev : evalNext f (expand m :: ev) with _ | ⟨_ | v, ev'⟩
            · rw [hev] at h; cases h
            · rw [hev] at h; rw [evalNext_mono hev]; exact ih h
            · rw [hev] at h; rw [evalNext_mono hev]
              cases v with
              | strukt s => exact ih h
              | int i => exact h
              | sym s => exact h
      | MakeField opt =>
        cases opt <;> simpa [nextFieldWith] using h
      | MakeStruct ev cur args =>
        cases cur with
        | some child =>
          simp only [nextFieldWith] at h ⊢
          rcases hc : nextFieldWith ip f child with _ | out
          · rw [hc] at h; cases h
          · rw [hc] at h; rw [ih hc]
            cases out with
            | field n v c' => exact h
            | err e c' => exact h
            | done c' => exact ih h
        | none =>
          simp only [nextFieldWith] at h ⊢
          rcases hev : evalNext f ev with _ | ⟨_ | v, ev'⟩
          · rw [hev] at h; cases h
          · rw [hev] at h; rw [evalNext_mono hev]
            cases args with
            | nil => exact h
            | cons a args' =>
              cases a with
              | ValueLiteral v =>
                cases v with
                | strukt s => exact ih h
                | int i => exact h
                | sym s => exact h
              | MacroInvocation m => exact ih h
          · rw [hev] at h; rw [evalNext_mono hev]
            cases v with
            | strukt s => exact ih h
            | int i => exact h
            | sym s => exact h
    | ExpandingValueExpr n =>
      cases src with
      | ValueLiteral ev fields =>
        simp only [nextFieldWith] at h ⊢
        rcases hev : evalNext f ev with _ | ⟨_ | v, ev'⟩
        · rw [hev] at h; cases h
        · rw [hev] at h; rw [evalNext_mono hev]; exact ih h
        · rw [hev] at h; rw [evalNext_mono hev]; exact h
      | Template ev fields =>
        simp only [nextFieldWith] at h ⊢
        rcases hev : evalNext f ev with _ | ⟨_ | v, ev'⟩
        · rw [hev] at h; cases h
        · rw [hev] at h; rw [evalNext_mono hev]; exact ih h
        · rw [hev] at h; rw [evalNext_mono hev]; exact h
      | MakeField opt => simpa [nextFieldWith] using h
      | MakeStruct ev cur args => simpa [nextFieldWith] using h
    | InliningAStruct child =>
      simp only [nextFieldWith] at h ⊢
      rcases hc : nextFieldWith ip f child with _ | out
      · rw [hc] at h; cases h
      · rw [hc] at h; rw [ih hc]
        cases out with
        | field n v c' => exact h
        | err e c' => exact h
        | done c' => exact ih h

theorem nextFieldWith_mono_le {ip : Bool} {f g : Nat} {it : ExpandedStructIterator}
    {r : NextOut} (hf : nextFieldWith ip f it = some r) (hle : f ≤ g) :
    nextFieldWith ip g it = some r := by
  induction g with
  | zero =>
    have h0 : f = 0 := Nat.le_zero.mp hle
    subst h0; exact hf
  | succ g ih =>
    rcases Nat.lt_or_ge g f with h1 | h1
    · have h2 : f = g + 1 := by omega
      subst h2; exact hf
    · exact nextFieldWith_mono (ih h1)

theorem drainWith_fuel_none {ip : Bool} {f : Nat} {it : ExpandedStructIterator}
    (hn : nextFieldWith ip (f + 1) it = none) : drainWith ip (f + 1) it = none := by
  simp only [drainWith, hn]

theorem drainWith_done {ip : Bool} {f : Nat} {it it' : ExpandedStructIterator}
    (hn : nextFieldWith ip (f + 1) it = some (.done it')) :
    drainWith ip (f + 1) it = some (.ok []) := by
  simp only [drainWith, hn]

theorem drainWith_err {ip : Bool} {f : Nat} {it it' : ExpandedStructIterator} {e : String}
    (hn : nextFieldWith ip (f + 1) it = some (.err e it')) :
    drainWith ip (f + 1) it = some (.error e) := by
  simp only [drainWith, hn]

theorem drainWith_field {ip : Bool} {f : Nat} {it it' : ExpandedStructIterator}
    {n : String} {v : Value}
    (hn : nextFieldWith ip (f + 1) it = some (.field n v it')) :
    drainWith ip (f + 1) it =
      match drainWith ip f it' with
      | none => none
      | some (.error e) => some (.error e)
      | some (.ok l) => some (.ok ((n, v) :: l)) := by
  simp only [drainWith, hn]

theorem drainWith_mono {ip : Bool} :
    ∀ {f : Nat} {it : ExpandedStructIterator} {r : Except String (List Field)},
      drainWith ip f it = some r → drainWith ip (f + 1) it = some r := by
  intro f
  induction f with
  | zero => intro it r h; simp [drainWith] at h
  | succ f ih =>
    intro it r h
    rcases hn : nextFieldWith ip (f + 1) it with _ | out
    · rw [drainWith_fuel_none hn] at h; cases h
    · cases out with
      | done it' =>
        rw [drainWith_done hn] at h
        rw [drainWith_done (nextFieldWith_mono hn)]
        exact h
      | err e it' =>
        rw [drainWith_err hn] at h
        rw [drainWith_err (nextFieldWith_mono hn)]
        exact h
      | field n v it' =>
        rw [drainWith_field hn] at h
        rw [drainWith_field (nextFieldWith_mono hn)]
        rcases hd : drainWith ip f it' with _ | r'
        · rw [hd] at h; cases h
        · rw [hd] at h; rw [ih hd]; exact h

theorem drainWith_mono_le {ip : Bool} {f g : Nat} {it : ExpandedStructIterator}
    {r : Except String (List Field)} (hf : drainWith ip f it = some r) (hle : f ≤ g) :
    drainWith ip g it = some r := by
  induction g with
  | zero =>
    have h0 : f = 0 := Nat.le_zero.mp hle
    subst h0; exact hf
  | succ g ih =>
    rcases Nat.lt_or_ge g f with h1 | h1
    · have h2 : f = g + 1 := by omega
      subst h2; exact hf
    · exact drainWith_mono (ih h1)

/-! ## Big-step drain relation and composition lemmas -/

theorem exceptMap_ok (g : List Field → List Field) (l : List Field) :
    Except.map g (.ok l : Except String (List Field)) = .ok (g l) := rfl

theorem exceptMap_error (g : List Field → List Field) (e : String) :
    Except.map g (.error e : Except String (List Field)) = .error e := rfl

theorem exceptMap_nil_prepend (r : Except String (List Field)) :
    Except.map (fun l => [] ++ l) r = r := by cases r <;> rfl

theorem exceptMap_cons_prepend (p : Field) (xs : List Field)
    (r : Except String (List Field)) :
    Except.map (fun l => p :: l) (Except.map (fun l => xs ++ l) r) =
      Except.map (fun l => (p :: xs) ++ l) r := by
  cases r <;> rfl

theorem exceptMap_comp_prepend (xs ys : List Field) (r : Except String (List Field)) :
    Except.map (fun l => xs ++ l) (Except.map (fun l => ys ++ l) r) =
      Except.map (fun l => (xs ++ ys) ++ l) r := by
  cases r with
  | error e => rfl
  | ok l => simp [Except.map]

theorem drainsTo_done {ip : Bool} {f : Nat} {it it' : ExpandedStructIterator}
    (hn : nextFieldWith ip (f + 1) it = some (.done it')) : DrainsTo ip it (.ok []) :=
  ⟨f + 1, drainWith_done hn⟩

theorem drainsTo_err {ip : Bool} {f : Nat} {it it' : ExpandedStructIterator} {e : String}
    (hn : nextFieldWith ip (f + 1) it = some (.err e it')) : DrainsTo ip it (.error e) :=
  ⟨f + 1, drainWith_err hn⟩

theorem drainsTo_field {ip : Bool} {f : Nat} {it it' : ExpandedStructIterator}
    {n : String} {v : Value} {r : Except String (List Field)}
    (hn : nextFieldWith ip (f + 1) it = some (.field n v it'))
    (h2 : DrainsTo ip it' r) :
    DrainsTo ip it (Except.map (fun l => (n, v) :: l) r) := by
  obtain ⟨g, hg⟩ := h2
  refine ⟨f + g + 2, ?_⟩
  rw [drainWith_field (nextFieldWith_mono_le hn (by omega))]
  rw [drainWith_mono_le hg (by omega)]
  cases r <;> rfl

/-- If, from some fuel bound on, one call on `it` computes exactly as a call
on `it'` (an internal `continue` of the state machine), then `it` drains to
whatever `it'` drains to. -/
theorem drainsTo_continue {ip : Bool} {it it' : ExpandedStructIterator}
    {r : Except String (List Field)} (f0 : Nat)
    (h1 : ∀ g, f0 ≤ g → nextFieldWith ip (g + 1) it = nextFieldWith ip g it')
    (h2 : DrainsTo ip it' r) : DrainsTo ip it r := by
  obtain ⟨g, hg⟩ := h2
  match g, hg with
  | 0, hg => simp [drainWith] at hg
  | G + 1, hg =>
    rcases hn : nextFieldWith ip (G + 1) it' with _ | out
    · rw [drainWith_fuel_none hn] at hg; cases hg
    · have hn2 : nextFieldWith ip (f0 + G + 1) it' = some out :=
        nextFieldWith_mono_le hn (by omega)
      have hstep : nextFieldWith ip (f0 + G + 2) it = some out := by
        rw [h1 (f0 + G + 1) (by omega)]; exact hn2
      cases out with
      | done it'' =>
        rw [drainWith_done hn] at hg
        obtain rfl : (.ok [] : Except String (List Field)) = r := by injection hg
        exact drainsTo_done hstep
      | err e it'' =>
        rw [drainWith_err hn] at hg
        obtain rfl : (.error e : Except String (List Field)) = r := by injection hg
        exact drainsTo_err hstep
      | field n v it'' =>
        rw [drainWith_field hn] at hg
        rcases hd : drainWith ip G it'' with _ | r''
        · rw [hd] at hg; cases hg
        · rw [hd] at hg
          refine ⟨f0 + G + 3, ?_⟩
          rw [drainWith_field (nextFieldWith_mono hstep)]
          rw [drainWith_mono_le hd (by omega)]
          cases r'' with
          | error e => simpa using hg
          | ok l => simpa using hg

/-! ## Drain lemmas for specific configurations -/

theorem drains_lit_nil {ip : Bool} {ev : MacroEvaluator} :
    DrainsTo ip (.mk (.ValueLiteral ev []) .ReadingFieldFromSource) (.ok []) := by
  exact @drainsTo_done ip 0 (.mk (.ValueLiteral ev []) .ReadingFieldFromSource)
    (.mk (.ValueLiteral ev []) .ReadingFieldFromSource) rfl

/-- Prepending literal name/value fields to a value-literal struct iterator
prepends exactly those fields to its drain. -/
theorem drains_nv_prepend (ip : Bool) (pre : List Field) {ev : MacroEvaluator}
    {fields : List FieldExpr} {r : Except String (List Field)}
    (h : DrainsTo ip (.mk (.ValueLiteral ev fields) .ReadingFieldFromSource) r) :
    DrainsTo ip (.mk (.ValueLiteral ev (nvFields pre ++ fields)) .ReadingFieldFromSource)
      (Except.map (fun l => pre ++ l) r) := by
  induction pre with
  | nil =>
    rw [show nvFields ([] : List Field) ++ fields = fields from by simp [nvFields]]
    rw [exceptMap_nil_prepend]
    exact h
  | cons p pre ih =>
    have hstep : nextFieldWith ip 1 (.mk (.ValueLiteral ev (nvFields (p :: pre) ++ fields))
        .ReadingFieldFromSource) = some (.field p.1 p.2
          (.mk (.ValueLiteral ev (nvFields pre ++ fields)) .ReadingFieldFromSource)) := by
      simp [nvFields, nextFieldWith]
    have h2 := drainsTo_field (f := 0) hstep ih
    rwa [exceptMap_cons_prepend] at h2

theorem drains_lit_nv (ip : Bool) (l : List Field) :
    DrainsTo ip (mkIter (.ValueLiteral (nvFields l))) (.ok l) := by
  have h := @drains_nv_prepend ip l [] [] _ drains_lit_nil
  simpa [mkIter, exceptMap_ok] using h

/-- While a `make_struct` source is traversing a current child struct, the
child's drain is emitted first, followed by whatever the remaining
evaluator/arguments produce. -/
theorem drains_mkstruct_cur {ip : Bool} {ev : MacroEvaluator} {args : List ValueExpr}
    {r : Except String (List Field)}
    (h2 : DrainsTo ip (.mk (.MakeStruct ev none args) .ReadingFieldFromSource) r) :
    ∀ (g : Nat) (child : ExpandedStructIterator) (l : List Field),
      drainWith ip g child = some (.ok l) →
      DrainsTo ip (.mk (.MakeStruct ev (some child) args) .ReadingFieldFromSource)
        (Except.map (fun l2 => l ++ l2) r) := by
  intro g
  induction g with
  | zero => intro child l hg; simp [drainWith] at hg
  | succ G ih =>
    intro child l hg
    rcases hn : nextFieldWith ip (G + 1) child with _ | out
    · rw [drainWith_fuel_none hn] at hg; cases hg
    · cases out with
      | done c' =>
        rw [drainWith_done hn] at hg
        obtain rfl : l = [] := by
          have h1 := Option.some.inj hg
          injection h1 with h1
          exact h1.symm
        have hcont : ∀ g', G + 1 ≤ g' → nextFieldWith ip (g' + 1)
            (.mk (.MakeStruct ev (some child) args) .ReadingFieldFromSource) =
            nextFieldWith ip g' (.mk (.MakeStruct ev none args) .ReadingFieldFromSource) := by
          intro g' hle
          have hc' := nextFieldWith_mono_le hn hle
          simp only [nextFieldWith, hc']
        have hres := drainsTo_continue (G + 1) hcont h2
        have hid : Except.map (fun l2 : List Field => [] ++ l2) r = r := by
          cases r <;> rfl
        rw [hid]
        exact hres
      | err e c' =>
        rw [drainWith_err hn] at hg
        exact absurd hg (by simp)
      | field n v c' =>
        rw [drainWith_field hn] at hg
        rcases hd : drainWith ip G c' with _ | r''
        · rw [hd] at hg; cases hg
        · rw [hd] at hg
          cases r'' with
          | error e => exact absurd hg (by simp)
          | ok l' =>
            obtain rfl : l = (n, v) :: l' := by
              have h1 := Option.some.inj hg
              injection h1 with h1
              exact h1.symm
            have hstep : nextFieldWith ip (G + 2)
                (.mk (.MakeStruct ev (some child) args) .ReadingFieldFromSource) =
                some (.field n v
                  (.mk (.MakeStruct ev (some c') args) .ReadingFieldFromSource)) := by
              simp only [nextFieldWith, hn]
            have hres := drainsTo_field (f := G + 1) hstep (ih c' l' hd)
            rwa [exceptMap_cons_prepend] at hres

/-- A `make_struct` source whose arguments are literal structs of plain
name/value fields drains to the concatenation of the argument structs'
fields, in argument order. -/
theorem drains_mkstruct_args (ip : Bool) (argls : List (List Field)) :
    DrainsTo ip
      (.mk (.MakeStruct [] none
        (argls.map fun fl => .ValueLiteral (.strukt (.ValueLiteral (nvFields fl)))))
        .ReadingFieldFromSource)
      (.ok argls.flatten) := by
  induction argls with
  | nil =>
    exact @drainsTo_done ip 1 _ (.mk (.MakeStruct [] none []) .ReadingFieldFromSource) rfl
  | cons fl rest ih =>
    have hcont : ∀ g, 1 ≤ g → nextFieldWith ip (g + 1)
        (.mk (.MakeStruct [] none
          (((fl :: rest).map fun fl => .ValueLiteral (.strukt (.ValueLiteral (nvFields fl))))))
          .ReadingFieldFromSource) =
        nextFieldWith ip g
          (.mk (.MakeStruct [] (some (mkIter (.ValueLiteral (nvFields fl))))
            (rest.map fun fl => .ValueLiteral (.strukt (.ValueLiteral (nvFields fl)))))
            .ReadingFieldFromSource) := by
      intro g hg
      match g, hg with
      | G + 1, _ => rfl
    obtain ⟨gc, hgc⟩ := drains_lit_nv ip fl
    have h2 := drains_mkstruct_cur ih gc (mkIter (.ValueLiteral (nvFields fl))) fl hgc
    have h3 := drainsTo_continue 1 hcont h2
    simpa [exceptMap_ok] using h3

/-- From the `ExpandingValueExpr` state over a value-literal source, the
iterator emits every pending evaluator value under the saved field name and
only then resumes the source: its drain is the pending values (as fields
named `n`) followed by the drain of the source with an empty evaluator. -/
theorem drains_expanding (ip : Bool) (fields : List FieldExpr) (n : String)
    {r : Except String (List Field)} :
    ∀ ev : MacroEvaluator,
      DrainsTo ip (.mk (.ValueLiteral [] fields) .ReadingFieldFromSource) r →
      DrainsTo ip (.mk (.ValueLiteral ev fields) (.ExpandingValueExpr n))
        (Except.map (fun l => (stackValues ev).map (fun v => (n, v)) ++ l) r) := by
  suffices H : ∀ W ev, weightStack ev ≤ W →
      DrainsTo ip (.mk (.ValueLiteral [] fields) .ReadingFieldFromSource) r →
      DrainsTo ip (.mk (.ValueLiteral ev fields) (.ExpandingValueExpr n))
        (Except.map (fun l => (stackValues ev).map (fun v => (n, v)) ++ l) r) by
    intro ev h
    exact H (weightStack ev) ev le_rfl h
  intro W
  induction W with
  | zero =>
    intro ev hw h
    match ev with
    | [] =>
      have hcont : ∀ g, 1 ≤ g → nextFieldWith ip (g + 1)
          (.mk (.ValueLiteral [] fields) (.ExpandingValueExpr n)) =
          nextFieldWith ip g (.mk (.ValueLiteral [] fields) .ReadingFieldFromSource) := by
        intro g hg
        match g, hg with
        | G + 1, _ => rfl
      have hres := drainsTo_continue 1 hcont h
      have hid : Except.map
          (fun l : List Field => (stackValues []).map (fun v => (n, v)) ++ l) r = r := by
        cases r <;> rfl
      rw [hid]
      exact hres
    | fr :: rest => simp [weightStack] at hw
  | succ W ih =>
    intro ev hw h
    rcases hsv : stackValues ev with _ | ⟨v, vs⟩
    · obtain ⟨f1, h1⟩ := evalNext_of_stackValues_nil ev hsv
      have hcont : ∀ g, f1 ≤ g → nextFieldWith ip (g + 1)
          (.mk (.ValueLiteral ev fields) (.ExpandingValueExpr n)) =
          nextFieldWith ip g (.mk (.ValueLiteral [] fields) .ReadingFieldFromSource) := by
        intro g hle
        have h1' := evalNext_mono_le h1 hle
        simp only [nextFieldWith, h1']
      have hres := drainsTo_continue f1 hcont h
      have hid : Except.map
          (fun l : List Field => List.map (fun v => (n, v)) [] ++ l) r = r := by
        cases r <;> rfl
      rw [hid]
      exact hres
    · obtain ⟨f1, ev', h1, hs, hwlt⟩ := evalNext_of_stackValues_cons ev v vs hsv
      by_cases he : ev' = []
      · subst he
        obtain rfl : vs = [] := hs.symm
        have hstep : nextFieldWith ip (f1 + 1)
            (.mk (.ValueLiteral ev fields) (.ExpandingValueExpr n)) =
            some (.field n v (.mk (.ValueLiteral [] fields) .ReadingFieldFromSource)) := by
          simp only [nextFieldWith, h1, List.isEmpty_nil, if_true]
        have hres := drainsTo_field (f := f1) hstep h
        have hid : Except.map
            (fun l : List Field => List.map (fun v => (n, v)) [v] ++ l) r =
            Except.map (fun l : List Field => (n, v) :: l) r := by
          cases r <;> rfl
        rw [hid]
        exact hres
      · have hne : ev'.isEmpty = false := by
          cases ev' with
          | nil => exact absurd rfl he
          | cons a b => rfl
        have hstep : nextFieldWith ip (f1 + 1)
            (.mk (.ValueLiteral ev fields) (.ExpandingValueExpr n)) =
            some (.field n v (.mk (.ValueLiteral ev' fields) (.ExpandingValueExpr n))) := by
          simp only [nextFieldWith, h1, hne, Bool.false_eq_true, if_false]
        have ihres := ih ev' (by omega) h
        rw [hs] at ihres
        have hres := drainsTo_field (f := f1) hstep ihres
        have hid : Except.map (fun l : List Field => (n, v) :: l)
            (Except.map (fun l : List Field => List.map (fun v => (n, v)) vs ++ l) r) =
            Except.map
              (fun l : List Field => List.map (fun v => (n, v)) (v :: vs) ++ l) r := by
          cases r <;> rfl
        rw [hid] at hres
        exact hres

/-- While the iterator is inlining a struct produced by a field-name-position
macro, the child's drain is emitted first, after which the iterator resumes
reading from its own source. -/
theorem drains_inlining {ip : Bool} {src : ExpandedStructIteratorSource}
    {r : Except String (List Field)}
    (h2 : DrainsTo ip (.mk src .ReadingFieldFromSource) r) :
    ∀ (g : Nat) (child : ExpandedStructIterator) (l : List Field),
      drainWith ip g child = some (.ok l) →
      DrainsTo ip (.mk src (.InliningAStruct child)) (Except.map (fun l2 => l ++ l2) r) := by
  intro g
  induction g with
  | zero => intro child l hg; simp [drainWith] at hg
  | succ G ih =>
    intro child l hg
    rcases hn : nextFieldWith ip (G + 1) child with _ | out
    · rw [drainWith_fuel_none hn] at hg; cases hg
    · cases out with
      | done c' =>
        rw [drainWith_done hn] at hg
        obtain rfl : l = [] := by
          have h1 := Option.some.inj hg
          injection h1 with h1
          exact h1.symm
        have hcont : ∀ g', G + 1 ≤ g' → nextFieldWith ip (g' + 1)
            (.mk src (.InliningAStruct child)) =
            nextFieldWith ip g' (.mk src .ReadingFieldFromSource) := by
          intro g' hle
          have hc' := nextFieldWith_mono_le hn hle
          simp only [nextFieldWith, hc']
        have hres := drainsTo_continue (G + 1) hcont h2
        have hid : Except.map (fun l2 : List Field => [] ++ l2) r = r := by
          cases r <;> rfl
        rw [hid]
        exact hres
      | err e c' =>
        rw [drainWith_err hn] at hg
        exact absurd hg (by simp)
      | field n v c' =>
        rw [drainWith_field hn] at hg
        rcases hd : drainWith ip G c' with _ | r''
        · rw [hd] at hg; cases hg
        · rw [hd] at hg
          cases r'' with
          | error e => exact absurd hg (by simp)
          | ok l' =>
            obtain rfl : l = (n, v) :: l' := by
              have h1 := Option.some.inj hg
              injection h1 with h1
              exact h1.symm
            have hstep : nextFieldWith ip (G + 2) (.mk src (.InliningAStruct child)) =
                some (.field n v (.mk src (.InliningAStruct c'))) := by
              simp only [nextFieldWith, hn]
            have hres := drainsTo_field (f := G + 1) hstep (ih c' l' hd)
            rwa [exceptMap_cons_prepend] at hres

/-- The denotation of a list of literal value expressions is the value list
itself. -/
theorem exprsValues_map_lit (vs : List Value) :
    exprsValues (vs.map .ValueLiteral) = vs := by
  induction vs with
  | nil => rfl
  | cons v vs ih => simp [exprsValues, exprValues, ih]

/-- An invocation the analysis marks as producing exactly one value expands
to a single literal expression, and `expand_singleton` returns exactly that
value. -/
theorem expand_of_mustProduceOne {m : MacroInvocation}
    (hm : mustProduceExactlyOneValue m = true) :
    ∃ v : Value, expand m = [.ValueLiteral v] ∧ expandSingleton m = .ok v := by
  cases m with
  | Values args => simp [mustProduceExactlyOneValue] at hm
  | MakeStruct args => exact ⟨.strukt (.MakeStruct args), rfl, rfl⟩
  | MakeField n v => exact ⟨.strukt (.MakeField n v), rfl, rfl⟩
  | Template body => simp [mustProduceExactlyOneValue] at hm

/-! ## Claim theorems -/

/-- Claim C8: a struct produced by `make_field` yields exactly the one
name/value pair it was constructed with, and then the iterator is exhausted:
the first `next_field` call emits the field, every further call reports the
terminal `None`, and the drain is the one-field list. -/
theorem c8_make_field_struct_yields_exactly_one_field :
    ∀ (n : String) (v : Value),
      nextField 1 (mkIter (.MakeField n v)) =
        some (.field n v (.mk (.MakeField none) .ReadingFieldFromSource)) ∧
      (∀ g : Nat, nextField (g + 1) (.mk (.MakeField none) .ReadingFieldFromSource) =
        some (.done (.mk (.MakeField none) .ReadingFieldFromSource))) ∧
      drain 2 (mkIter (.MakeField n v)) = some (.ok [(n, v)]) := by
  intro n v
  exact ⟨rfl, fun g => rfl, rfl⟩

/-- Claim C1, code behavior at the failing input: iterating the struct
whose only raw field expression is a field-name-position macro expanding to
the two structs `{dog:1}` and `{cat:2}`, the iterator emits only `dog:1`.
After the first child struct is exhausted, the `InliningAStruct` arm of
`next_field` (struct.rs 552-560) unconditionally returns to
`ReadingFieldFromSource` without pulling the next struct from the
evaluator, so `cat:2` is never emitted — contradicting the claimed
transition (and the tooling `FieldExprIterator`, struct.rs 730-751, which
does pull the next struct in the same situation). -/
theorem c1_inlining_does_not_pull_next_struct :
    drain 32 (mkIter twoStructSplice) = some (.ok [("dog", .int 1)]) ∧
    drain 32 (mkIter twoStructSplice) ≠
      some (.ok [("dog", .int 1), ("cat", .int 2)]) := by
  refine ⟨rfl, ?_⟩
  intro h
  rw [show drain 32 (mkIter twoStructSplice) = some (.ok [("dog", .int 1)]) from rfl] at h
  exact absurd h (by simp)

/-- Claim C2, counterexample to the concrete scenario as written: in
`{a:1, (:make_struct b 2 c 3), d:4}` the first argument of `make_struct`
is the symbol `b`, which is not a struct, so iteration produces a decoding
error — not the claimed field sequence `a:1, b:2, c:3, d:4`. -/
theorem c2_bare_args_scenario_is_an_error :
    drain 64 (mkIter makeStructBareArgs) =
      some (.error "make_struct only accepts structs") ∧
    drain 64 (mkIter makeStructBareArgs) ≠
      some (.ok [("a", .int 1), ("b", .int 2), ("c", .int 3), ("d", .int 4)]) := by
  refine ⟨rfl, ?_⟩
  intro h
  rw [show drain 64 (mkIter makeStructBareArgs) =
    some (.error "make_struct only accepts structs") from rfl] at h
  exact absurd h (by simp)

/-- Claim C2 as amended: for raw fields `pre..., E, post...` where `E` is a
`make_struct` invocation whose arguments are struct literals `A1..Ak`,
iteration emits the fields of `pre`, then the fields of `A1..Ak` as one
contiguous run in argument order, then the fields of `post`; concretely,
`{a:1, (:make_struct {b:2} {c:3}), d:4}` yields `a:1, b:2, c:3, d:4`. -/
theorem c2_make_struct_splice_order :
    (∀ (pre post : List Field) (argls : List (List Field)),
      DrainsTo true
        (mkIter (.ValueLiteral (nvFields pre ++
          (.EExp (.MakeStruct (argls.map fun fl =>
            .ValueLiteral (.strukt (.ValueLiteral (nvFields fl))))) :: nvFields post))))
        (.ok (pre ++ argls.flatten ++ post))) ∧
    drain 64 (mkIter makeStructStructArgs) =
      some (.ok [("a", .int 1), ("b", .int 2), ("c", .int 3), ("d", .int 4)]) := by
  constructor
  · intro pre post argls
    have hpost : DrainsTo true
        (.mk (.ValueLiteral [] (nvFields post)) .ReadingFieldFromSource) (.ok post) := by
      have h := drains_lit_nv true post
      simpa [mkIter] using h
    obtain ⟨gargs, hargs⟩ := drains_mkstruct_args true argls
    have hinl := drains_inlining hpost gargs
      (.mk (.MakeStruct [] none (argls.map fun fl =>
        .ValueLiteral (.strukt (.ValueLiteral (nvFields fl))))) .ReadingFieldFromSource)
      argls.flatten hargs
    rw [exceptMap_ok] at hinl
    have hcont : ∀ g, 1 ≤ g → nextFieldWith true (g + 1)
        (.mk (.ValueLiteral [] (.EExp (.MakeStruct (argls.map fun fl =>
          .ValueLiteral (.strukt (.ValueLiteral (nvFields fl))))) :: nvFields post))
          .ReadingFieldFromSource) =
        nextFieldWith true g
          (.mk (.ValueLiteral [] (nvFields post))
            (.InliningAStruct (.mk (.MakeStruct [] none (argls.map fun fl =>
              .ValueLiteral (.strukt (.ValueLiteral (nvFields fl)))))
                .ReadingFieldFromSource))) := by
      intro g hg
      match g, hg with
      | G + 1, _ => rfl
    have hsplice := drainsTo_continue 1 hcont hinl
    have hfull := drains_nv_prepend true pre hsplice
    rw [exceptMap_ok] at hfull
    rw [List.append_assoc]
    simpa [mkIter] using hfull
  · rfl

/-- Claim C3: a `make_struct` argument resolving to a non-struct value turns
iteration into a decoding error (an `Err` item, after the fields of any
preceding struct arguments have been emitted), and a macro in field-name
position whose expansion produces a non-struct value likewise yields a
decoding error; in the total model neither situation is a panic. -/
theorem c3_non_struct_arguments_are_decoding_errors :
    (∀ (goodls : List (List Field)) (v : Value) (rest : List ValueExpr),
      v.isStrukt = false →
      DrainsTo true
        (.mk (.MakeStruct [] none
          ((goodls.map fun fl => .ValueLiteral (.strukt (.ValueLiteral (nvFields fl)))) ++
            .ValueLiteral v :: rest)) .ReadingFieldFromSource)
        (.error "make_struct only accepts structs")) ∧
    (∀ (m : MacroInvocation) (v : Value) (vs : List Value) (fields : List FieldExpr),
      invValues m = v :: vs → v.isStrukt = false →
      DrainsTo true (.mk (.ValueLiteral [] (.EExp m :: fields)) .ReadingFieldFromSource)
        (.error "macros in field name position must produce structs")) := by
  constructor
  · intro goodls
    induction goodls with
    | nil =>
      intro v rest hv
      cases v with
      | strukt s => simp [Value.isStrukt] at hv
      | int i => exact drainsTo_err (f := 1) rfl
      | sym s => exact drainsTo_err (f := 1) rfl
    | cons fl goodls ih =>
      intro v rest hv
      have hcont : ∀ g, 1 ≤ g → nextFieldWith true (g + 1)
          (.mk (.MakeStruct [] none
            (((fl :: goodls).map fun fl =>
              .ValueLiteral (.strukt (.ValueLiteral (nvFields fl)))) ++
              .ValueLiteral v :: rest)) .ReadingFieldFromSource) =
          nextFieldWith true g
            (.mk (.MakeStruct [] (some (mkIter (.ValueLiteral (nvFields fl))))
              ((goodls.map fun fl =>
                .ValueLiteral (.strukt (.ValueLiteral (nvFields fl)))) ++
                .ValueLiteral v :: rest)) .ReadingFieldFromSource) := by
        intro g hg
        match g, hg with
        | G + 1, _ => rfl
      obtain ⟨gc, hgc⟩ := drains_lit_nv true fl
      have h2 := drains_mkstruct_cur (ih v rest hv) gc
        (mkIter (.ValueLiteral (nvFields fl))) fl hgc
      rw [exceptMap_error] at h2
      exact drainsTo_continue 1 hcont h2
  · intro m v vs fields hm hv
    have hsv : stackValues [expand m] = v :: vs := by
      simp [stackValues, exprsValues_expand, hm]
    obtain ⟨f1, ev', h1, _, _⟩ := evalNext_of_stackValues_cons _ v vs hsv
    have hstep : nextFieldWith true (f1 + 1)
        (.mk (.ValueLiteral [] (.EExp m :: fields)) .ReadingFieldFromSource) =
        some (.err "macros in field name position must produce structs"
          (.mk (.ValueLiteral ev' fields) .ReadingFieldFromSource)) := by
      cases v with
      | strukt s => simp [Value.isStrukt] at hv
      | int i => simp only [nextFieldWith, h1]
      | sym s => simp only [nextFieldWith, h1]
    exact drainsTo_err hstep

theorem c3_witness :
    ((Value.int 5).isStrukt = false ∧
      DrainsTo true (.mk (.MakeStruct [] none [.ValueLiteral (.int 5)])
        .ReadingFieldFromSource) (.error "make_struct only accepts structs")) ∧
    (invValues (.Values [.ValueLiteral (.int 7)]) = [.int 7] ∧
      DrainsTo true (.mk (.ValueLiteral [] [.EExp (.Values [.ValueLiteral (.int 7)])])
        .ReadingFieldFromSource)
        (.error "macros in field name position must produce structs")) := by
  refine ⟨⟨rfl, ?_⟩, ⟨rfl, ?_⟩⟩
  · exact c3_non_struct_arguments_are_decoding_errors.1 [] (.int 5) [] rfl
  · exact c3_non_struct_arguments_are_decoding_errors.2
      (.Values [.ValueLiteral (.int 7)]) (.int 7) [] [] rfl rfl

/-- Claim C7: a macro in field-name position whose expansion produces zero
values is a no-op splice: the iterator emits no fields and no error for that
expression and continues with the parent struct's remaining source fields,
so `pre..., (:empty-macro), post...` drains to exactly `pre ++ post`. -/
theorem c7_empty_name_position_expansion_is_noop :
    ∀ (pre post : List Field) (m : MacroInvocation), invValues m = [] →
      DrainsTo true (mkIter (.ValueLiteral (nvFields pre ++ (.EExp m :: nvFields post))))
        (.ok (pre ++ post)) := by
  intro pre post m hm
  have hpost : DrainsTo true
      (.mk (.ValueLiteral [] (nvFields post)) .ReadingFieldFromSource) (.ok post) := by
    have h := drains_lit_nv true post
    simpa [mkIter] using h
  have hsv : stackValues [expand m] = [] := by
    simp [stackValues, exprsValues_expand, hm]
  obtain ⟨f1, h1⟩ := evalNext_of_stackValues_nil _ hsv
  have hcont : ∀ g, f1 ≤ g → nextFieldWith true (g + 1)
      (.mk (.ValueLiteral [] (.EExp m :: nvFields post)) .ReadingFieldFromSource) =
      nextFieldWith true g
        (.mk (.ValueLiteral [] (nvFields post)) .ReadingFieldFromSource) := by
    intro g hle
    have h1' := evalNext_mono_le h1 hle
    simp only [nextFieldWith, h1']
  have h2 := drainsTo_continue f1 hcont hpost
  have h3 := drains_nv_prepend true pre h2
  rw [exceptMap_ok] at h3
  simpa [mkIter] using h3

theorem c7_witness :
    invValues (.Values []) = [] ∧
    DrainsTo true
      (mkIter (.ValueLiteral (nvFields [("a", .int 1)] ++
        (.EExp (.Values []) :: nvFields [("d", .int 4)]))))
      (.ok [("a", .int 1), ("d", .int 4)]) :=
  ⟨rfl, c7_empty_name_position_expansion_is_noop
    [("a", .int 1)] [("d", .int 4)] (.Values []) rfl⟩

/-- Claim C5: a struct field whose value position invokes `values` on
`v1..vn` under field name `n` expands to exactly the fields
`(n,v1)...(n,vn)` in argument order, each under the same name, with the
surrounding source fields unaffected; concretely `bar: (:three_values)`
(where `three_values` is the template `(.values 1 2 3)`) yields
`bar:1, bar:2, bar:3`. -/
theorem c5_values_in_value_position_fans_out :
    (∀ (pre post : List Field) (n : String) (vs : List Value),
      DrainsTo true
        (mkIter (.ValueLiteral (nvFields pre ++
          (.NameMacro n (.Values (vs.map .ValueLiteral)) :: nvFields post))))
        (.ok (pre ++ (vs.map fun v => (n, v)) ++ post))) ∧
    drain 64 (mkIter (.ValueLiteral [.NameMacro "bar" threeValues])) =
      some (.ok [("bar", .int 1), ("bar", .int 2), ("bar", .int 3)]) := by
  constructor
  · intro pre post n vs
    have hpost : DrainsTo true
        (.mk (.ValueLiteral [] (nvFields post)) .ReadingFieldFromSource) (.ok post) := by
      have h := drains_lit_nv true post
      simpa [mkIter] using h
    have hexp := drains_expanding true (nvFields post) n
      [vs.map ValueExpr.ValueLiteral] hpost
    have hsv : stackValues [vs.map ValueExpr.ValueLiteral] = vs := by
      simp [stackValues, exprsValues_map_lit]
    rw [hsv, exceptMap_ok] at hexp
    have hcont : ∀ g, 0 ≤ g → nextFieldWith true (g + 1)
        (.mk (.ValueLiteral [] (.NameMacro n (.Values (vs.map .ValueLiteral)) :: nvFields post))
          .ReadingFieldFromSource) =
        nextFieldWith true g
          (.mk (.ValueLiteral [vs.map ValueExpr.ValueLiteral] (nvFields post))
            (.ExpandingValueExpr n)) := by
      intro g _
      rfl
    have h2 := drainsTo_continue 0 hcont hexp
    have h3 := drains_nv_prepend true pre h2
    rw [exceptMap_ok] at h3
    rw [List.append_assoc]
    simpa [mkIter] using h3
  · rfl

/-- Claim C6, counterexample: the in-place strategy and the general
push-a-frame strategy are not observationally equivalent on every struct.
In `{ (:values {dog:1} {cat:2}), bar: (:make_field x 5) }`, the field-name
position macro leaves its second struct pending on the iterator's shared
evaluator (the defect of claim C1); the in-place evaluation of the
`must_produce_exactly_one_value` field `bar` never touches the evaluator,
while the general path pushes a frame onto it and then also dequeues the
stale pending struct as an extra `bar` field. -/
theorem c6_in_place_differs_with_stale_evaluator_frames :
    drainWith true 64 (mkIter spliceThenFieldMacro) =
      some (.ok [("dog", .int 1), ("bar", .strukt (.MakeField "x" (.int 5)))]) ∧
    drainWith false 64 (mkIter spliceThenFieldMacro) =
      some (.ok [("dog", .int 1), ("bar", .strukt (.MakeField "x" (.int 5))),
        ("bar", catStruct)]) ∧
    drainWith true 64 (mkIter spliceThenFieldMacro) ≠
      drainWith false 64 (mkIter spliceThenFieldMacro) := by
  refine ⟨rfl, rfl, ?_⟩
  intro h
  rw [show drainWith true 64 (mkIter spliceThenFieldMacro) =
      some (.ok [("dog", .int 1), ("bar", .strukt (.MakeField "x" (.int 5)))]) from rfl,
    show drainWith false 64 (mkIter spliceThenFieldMacro) =
      some (.ok [("dog", .int 1), ("bar", .strukt (.MakeField "x" (.int 5))),
        ("bar", catStruct)]) from rfl] at h
  exact absurd h (by simp)

/-- Claim C6 as amended: on structs whose raw fields are all name/value or
name/macro pairs (no macro in field-name position, hence no stale evaluator
frames), the in-place single-value evaluation and the general push-a-frame
path produce identical drains — the optimization is not observable there. -/
theorem c6_in_place_equals_push_without_eexp_fields :
    ∀ fields : List FieldExpr, noEExpFields fields = true →
      ∃ r, DrainsTo true (mkIter (.ValueLiteral fields)) r ∧
        DrainsTo false (mkIter (.ValueLiteral fields)) r := by
  suffices H : ∀ fields : List FieldExpr, noEExpFields fields = true →
      ∃ r, DrainsTo true (.mk (.ValueLiteral [] fields) .ReadingFieldFromSource) r ∧
        DrainsTo false (.mk (.ValueLiteral [] fields) .ReadingFieldFromSource) r by
    intro fields h
    obtain ⟨r, h1, h2⟩ := H fields h
    exact ⟨r, by simpa [mkIter] using h1, by simpa [mkIter] using h2⟩
  intro fields
  induction fields with
  | nil => exact fun _ => ⟨.ok [], drains_lit_nil, drains_lit_nil⟩
  | cons fe rest ih =>
    intro hno
    have hno' : noEExpFields rest = true := by
      simp only [noEExpFields, List.all_cons, Bool.and_eq_true] at hno
      exact hno.2
    obtain ⟨r, h1, h2⟩ := ih hno'
    cases fe with
    | NameValue n v =>
      refine ⟨Except.map (fun l => (n, v) :: l) r, ?_, ?_⟩
      · exact drainsTo_field (f := 0) rfl h1
      · exact drainsTo_field (f := 0) rfl h2
    | NameMacro n m =>
      by_cases hm : mustProduceExactlyOneValue m = true
      · obtain ⟨v, hexp, hsingle⟩ := expand_of_mustProduceOne hm
        have hstep_t : nextFieldWith true (0 + 1)
            (.mk (.ValueLiteral [] (.NameMacro n m :: rest)) .ReadingFieldFromSource) =
            some (.field n v (.mk (.ValueLiteral [] rest) .ReadingFieldFromSource)) := by
          simp [nextFieldWith, hm, hsingle]
        have h1' := drainsTo_field (f := 0) hstep_t h1
        have hcont_f : ∀ g, 0 ≤ g → nextFieldWith false (g + 1)
            (.mk (.ValueLiteral [] (.NameMacro n m :: rest)) .ReadingFieldFromSource) =
            nextFieldWith false g
              (.mk (.ValueLiteral [expand m] rest) (.ExpandingValueExpr n)) :=
          fun g _ => rfl
        have hexp_f := drains_expanding false rest n [expand m] h2
        have h2' := drainsTo_continue 0 hcont_f hexp_f
        have hid : Except.map
            (fun l => (stackValues [expand m]).map (fun v => (n, v)) ++ l) r =
            Except.map (fun l => (n, v) :: l) r := by
          rw [hexp]
          cases r <;> rfl
        rw [hid] at h2'
        exact ⟨Except.map (fun l => (n, v) :: l) r, h1', h2'⟩
      · have hmf : mustProduceExactlyOneValue m = false := by
          revert hm
          cases mustProduceExactlyOneValue m <;> simp
        have hcont_t : ∀ g, 0 ≤ g → nextFieldWith true (g + 1)
            (.mk (.ValueLiteral [] (.NameMacro n m :: rest)) .ReadingFieldFromSource) =
            nextFieldWith true g
              (.mk (.ValueLiteral [expand m] rest) (.ExpandingValueExpr n)) := by
          intro g _
          simp [nextFieldWith, hmf]
        have hcont_f : ∀ g, 0 ≤ g → nextFieldWith false (g + 1)
            (.mk (.ValueLiteral [] (.NameMacro n m :: rest)) .ReadingFieldFromSource) =
            nextFieldWith false g
              (.mk (.ValueLiteral [expand m] rest) (.ExpandingValueExpr n)) :=
          fun g _ => rfl
        exact ⟨Except.map
            (fun l => (stackValues [expand m]).map (fun v => (n, v)) ++ l) r,
          drainsTo_continue 0 hcont_t (drains_expanding true rest n [expand m] h1),
          drainsTo_continue 0 hcont_f (drains_expanding false rest n [expand m] h2)⟩
    | EExp m => simp [noEExpFields] at hno

theorem c6_witness :
    noEExpFields [.NameMacro "a" (.MakeField "x" (.int 5))] = true ∧
    ∃ r, DrainsTo true
        (mkIter (.ValueLiteral [.NameMacro "a" (.MakeField "x" (.int 5))])) r ∧
      DrainsTo false
        (mkIter (.ValueLiteral [.NameMacro "a" (.MakeField "x" (.int 5))])) r :=
  ⟨rfl, c6_in_place_equals_push_without_eexp_fields
    [.NameMacro "a" (.MakeField "x" (.int 5))] rfl⟩

/-! ## Post-termination stability -/

/-- Once `next_field` reports the terminal `None`, the iterator it leaves
behind reports `None` on every further call (with at least as much fuel),
without changing state again. -/
theorem nextFieldWith_done_stable {ip : Bool} :
    ∀ {f : Nat} {it it' : ExpandedStructIterator},
      nextFieldWith ip f it = some (.done it') →
      ∀ g, f ≤ g → nextFieldWith ip g it' = some (.done it') := by
  intro f
  induction f with
  | zero => intro it it' h; simp [nextFieldWith] at h
  | succ f ih =>
    intro it it' h g hg
    obtain ⟨G, rfl⟩ : ∃ G, g = G + 1 := ⟨g - 1, by omega⟩
    obtain ⟨src, st⟩ := it
    cases st with
    | ReadingFieldFromSource =>
      cases src with
      | ValueLiteral ev fields =>
        cases fields with
        | nil =>
          rw [show nextFieldWith ip (f + 1)
            (.mk (.ValueLiteral ev []) .ReadingFieldFromSource) =
            some (.done (.mk (.ValueLiteral ev []) .ReadingFieldFromSource)) from rfl] at h
          obtain rfl : it' = .mk (.ValueLiteral ev []) .ReadingFieldFromSource := by
            have h1 := Option.some.inj h
            injection h1 with h1
            exact h1.symm
          rfl
        | cons fe rest =>
          cases fe with
          | NameValue n v =>
            rw [show nextFieldWith ip (f + 1)
              (.mk (.ValueLiteral ev (.NameValue n v :: rest)) .ReadingFieldFromSource) =
              some (.field n v
                (.mk (.ValueLiteral ev rest) .ReadingFieldFromSource)) from rfl] at h
            simp at h
          | NameMacro n m =>
            simp only [nextFieldWith] at h
            by_cases hip : (ip && mustProduceExactlyOneValue m) = true
            · simp only [hip, if_true] at h
              rcases hs : expandSingleton m with v | e <;> rw [hs] at h <;> simp at h
            · simp only [Bool.not_eq_true] at hip
              simp only [hip, Bool.false_eq_true, if_false] at h
              exact ih h (G + 1) (by omega)
          | EExp m =>
            simp only [nextFieldWith] at h
            rcases hev : evalNext f (expand m :: ev) with _ | ⟨_ | v, ev'⟩
            · rw [hev] at h; cases h
            · rw [hev] at h
              exact ih h (G + 1) (by omega)
            · rw [hev] at h
              cases v with
              | strukt s => exact ih h (G + 1) (by omega)
              | int i => simp at h
              | sym s => simp at h
      | Template ev fields =>
        cases fields with
        | nil =>
          rw [show nextFieldWith ip (f + 1)
            (.mk (.Template ev []) .ReadingFieldFromSource) =
            some (.done (.mk (.Template ev []) .ReadingFieldFromSource)) from rfl] at h
          obtain rfl : it' = .mk (.Template ev []) .ReadingFieldFromSource := by
            have h1 := Option.some.inj h
            injection h1 with h1
            exact h1.symm
          rfl
        | cons fe rest =>
          cases fe with
          | NameValue n v =>
            rw [show nextFieldWith ip (f + 1)
              (.mk (.Template ev (.NameValue n v :: rest)) .ReadingFieldFromSource) =
              some (.field n v
                (.mk (.Template ev rest) .ReadingFieldFromSource)) from rfl] at h
            simp at h
          | NameMacro n m =>
            simp only [nextFieldWith] at h
            by_cases hip : (ip && mustProduceExactlyOneValue m) = true
            · simp only [hip, if_true] at h
              rcases hs : expandSingleton m with v | e <;> rw [hs] at h <;> simp at h
            · simp only [Bool.not_eq_true] at hip
              simp only [hip, Bool.false_eq_true, if_false] at h
              exact ih h (G + 1) (by omega)
          | EExp m =>
            simp only [nextFieldWith] at h
            rcases hev : evalNext f (expand m :: ev) with _ | ⟨_ | v, ev'⟩
            · rw [hev] at h; cases h
            · rw [hev] at h
              exact ih h (G + 1) (by omega)
            · rw [hev] at h
              cases v with
              | strukt s => exact ih h (G + 1) (by omega)
              | int i => simp at h
              | sym s => simp at h
      | MakeField opt =>
        cases opt with
        | some p =>
          rw [show nextFieldWith ip (f + 1)
            (.mk (.MakeField (some p)) .ReadingFieldFromSource) =
            some (.field p.1 p.2
              (.mk (.MakeField none) .ReadingFieldFromSource)) from rfl] at h
          simp at h
        | none =>
          rw [show nextFieldWith ip (f + 1)
            (.mk (.MakeField none) .ReadingFieldFromSource) =
            some (.done (.mk (.MakeField none) .ReadingFieldFromSource)) from rfl] at h
          obtain rfl : it' = .mk (.MakeField none) .ReadingFieldFromSource := by
            have h1 := Option.some.inj h
            injection h1 with h1
            exact h1.symm
          rfl
      | MakeStruct ev cur args =>
        cases cur with
        | some child =>
          simp only [nextFieldWith] at h
          rcases hc : nextFieldWith ip f child with _ | out
          · rw [hc] at h; cases h
          · rw [hc] at h
            cases out with
            | field n v c' => simp at h
            | err e c' => simp at h
            | done c' => exact ih h (G + 1) (by omega)
        | none =>
          simp only [nextFieldWith] at h
          rcases hev : evalNext f ev with _ | ⟨_ | v, ev'⟩
          · rw [hev] at h; cases h
          · rw [hev] at h
            cases args with
            | nil =>
              obtain rfl : ev' = [] := evalNext_none_nil hev
              obtain rfl : it' = .mk (.MakeStruct [] none []) .ReadingFieldFromSource := by
                have h1 := Option.some.inj h
                injection h1 with h1
                exact h1.symm
              have hf : 1 ≤ f := by
                by_contra hf0
                have : f = 0 := by omega
                subst this
                simp [evalNext] at hev
              obtain ⟨G', rfl⟩ : ∃ G', G = G' + 1 := ⟨G - 1, by omega⟩
              rfl
            | cons a args' =>
              cases a with
              | ValueLiteral v =>
                cases v with
                | strukt s => exact ih h (G + 1) (by omega)
                | int i => simp at h
                | sym s => simp at h
              | MacroInvocation m => exact ih h (G + 1) (by omega)
          · rw [hev] at h
            cases v with
            | strukt s => exact ih h (G + 1) (by omega)
            | int i => simp at h
            | sym s => simp at h
    | ExpandingValueExpr n =>
      cases src with
      | ValueLiteral ev fields =>
        simp only [nextFieldWith] at h
        rcases hev : evalNext f ev with _ | ⟨_ | v, ev'⟩
        · rw [hev] at h; cases h
        · rw [hev] at h
          exact ih h (G + 1) (by omega)
        · rw [hev] at h; simp at h
      | Template ev fields =>
        simp only [nextFieldWith] at h
        rcases hev : evalNext f ev with _ | ⟨_ | v, ev'⟩
        · rw [hev] at h; cases h
        · rw [hev] at h
          exact ih h (G + 1) (by omega)
        · rw [hev] at h; simp at h
      | MakeField opt => simp [nextFieldWith] at h
      | MakeStruct ev cur args => simp [nextFieldWith] at h
    | InliningAStruct child =>
      simp only [nextFieldWith] at h
      rcases hc : nextFieldWith ip f child with _ | out
      · rw [hc] at h; cases h
      · rw [hc] at h
        cases out with
        | field n v c' => simp at h
        | err e c' => simp at h
        | done c' => exact ih h (G + 1) (by omega)

theorem consumeTokens_nil (n : Nat) : consumeTokens n [] = [] := by
  cases n <;> rfl

/-- Consuming from a buffer with no remaining tokens leaves it unchanged. -/
theorem SeqBuffer.consume_of_empty {b : SeqBuffer} (hb : b.tokens = []) (n : Nat) :
    b.consume n = b := by
  obtain ⟨off, toks⟩ := b
  simp only at hb
  subst hb
  simp [SeqBuffer.consume, consumeTokens_nil, totalLen]

theorem noCloseTokens_consumeTokens {ts : List SeqToken} (h : noCloseTokens ts = true) :
    ∀ n, noCloseTokens (consumeTokens n ts) = true := by
  induction ts with
  | nil => intro n; rw [consumeTokens_nil]; rfl
  | cons t ts ih =>
    intro n
    have hts : noCloseTokens ts = true := by
      simp only [noCloseTokens, List.all_cons, Bool.and_eq_true] at h
      exact h.2
    cases n with
    | zero => exact h
    | succ n =>
      simp only [consumeTokens]
      by_cases hl : t.len ≤ n + 1
      · rw [if_pos hl]
        exact ih hts _
      · rw [if_neg hl]
        exact h

/-- A buffer with no close markers that peeks as end-of-input is empty. -/
theorem peek_none_empty {ts : List SeqToken}
    (hp : peekSequenceValueExpr ts = .ok none) (hnc : noCloseTokens ts = true) :
    ts = [] := by
  cases ts with
  | nil => rfl
  | cons t ts =>
    cases t with
    | value e => simp [peekSequenceValueExpr] at hp
    | closeDelim => simp [noCloseTokens] at hnc
    | malformed => simp [peekSequenceValueExpr] at hp

/-- Unfolding equation for `seqNext` on a non-delimited iterator. -/
theorem seqNext_nondelim (src : SeqBuffer) (bts : Nat) :
    seqNext ⟨src, bts, none⟩ =
      match peekSequenceValueExpr (src.consume bts).tokens with
      | .ok none => (none, ⟨src.consume bts, bts, none⟩)
      | .error err => (some (.error err), ⟨src.consume bts, bts, none⟩)
      | .ok (some e) => (some (.ok e), ⟨src.consume bts, e.len, none⟩) := rfl

/-- Claim C9: after the terminal result, polling again keeps returning the
terminal result. First conjunct: the expanded struct iterator — a `None`
(`done`) outcome is a fixpoint: every further `next_field` call on the
resulting state (with at least as much fuel) returns `None` with the state
unchanged. Second conjunct: the raw binary sequence iterator — if `next`
returns `None`, calling `next` on the state it leaves behind returns `None`
again with that same state (for the non-delimited branch this relies on the
body of a length-prefixed container containing no delimited-close markers,
which is how such iterators are built). -/
theorem c9_next_after_none_is_none :
    (∀ (f : Nat) (it it' : ExpandedStructIterator),
      nextField f it = some (.done it') →
      ∀ g, f ≤ g → nextField g it' = some (.done it')) ∧
    (∀ it r : RawBinarySequenceIterator,
      seqNext it = (none, r) →
      (it.delimitedOffsets = none → noCloseTokens it.source.tokens = true) →
      seqNext r = (none, r)) := by
  constructor
  · intro f it it' h g hg
    exact nextFieldWith_done_stable h g hg
  · intro it r h hnc
    obtain ⟨src, bts, dlo⟩ := it
    cases dlo with
    | none =>
      have hnc' : noCloseTokens src.tokens = true := hnc rfl
      rw [seqNext_nondelim] at h
      cases hp : peekSequenceValueExpr (src.consume bts).tokens with
      | error e =>
        rw [hp] at h
        have h2 : (some (Except.error e),
            (⟨src.consume bts, bts, none⟩ : RawBinarySequenceIterator)) = (none, r) := h
        injection h2 with h3 _
        cases h3
      | ok o =>
        cases o with
        | none =>
          rw [hp] at h
          have h2 : ((none : Option (Except String EncodedExpr)),
              (⟨src.consume bts, bts, none⟩ : RawBinarySequenceIterator)) = (none, r) := h
          injection h2 with _ h3
          subst h3
          have hnc2 : noCloseTokens (src.consume bts).tokens = true :=
            noCloseTokens_consumeTokens hnc' bts
          have hempty : (src.consume bts).tokens = [] := peek_none_empty hp hnc2
          rw [seqNext_nondelim, SeqBuffer.consume_of_empty hempty bts, hp]
        | some v =>
          rw [hp] at h
          have h2 : (some (Except.ok v),
              (⟨src.consume bts, v.len, none⟩ : RawBinarySequenceIterator)) = (none, r) := h
          injection h2 with h3 _
          cases h3
    | some offsets =>
      by_cases hlen : offsets.length ≤ 1
      · simp only [seqNext, hlen, if_true] at h ⊢
        have h2 : ((none : Option (Except String EncodedExpr)),
            (⟨src, bts, some offsets⟩ : RawBinarySequenceIterator)) = (none, r) := h
        injection h2 with _ h3
        subst h3
        simp [seqNext, hlen]
      · cases hp : peekOpcodeIsClose ((src.consume (offsets.headI - src.offset)).tokens) with
        | error e =>
          cases offsets with
          | nil => simp at hlen
          | cons o1 rest =>
            have hrest : rest ≠ [] := by
              intro hr
              subst hr
              simp at hlen
            simp only [List.headI] at hp
            simp [seqNext, hlen, hp, hrest] at h
        | ok b =>
          cases offsets with
          | nil => simp at hlen
          | cons o1 rest =>
            have hrest : rest ≠ [] := by
              intro hr
              subst hr
              simp at hlen
            simp only [List.headI] at hp
            cases b with
            | true =>
              simp [seqNext, hlen, hp, hrest] at h
              obtain rfl : r = ⟨src, bts, some (o1 :: rest)⟩ := h.symm
              simp [seqNext, hlen, hp, hrest]
            | false =>
              cases hq : peekSequenceValueExpr
                  ((src.consume (o1 - src.offset)).tokens) with
              | error e => simp [seqNext, hlen, hp, hq, hrest] at h
              | ok o =>
                cases o with
                | none =>
                  simp [seqNext, hlen, hp, hq, hrest] at h
                  obtain rfl : r = ⟨src, bts, some (o1 :: rest)⟩ := h.symm
                  simp [seqNext, hlen, hp, hq, hrest]
                | some v => simp [seqNext, hlen, hp, hq, hrest] at h

theorem c9_witness :
    (nextField 1 (mkIter (.ValueLiteral []))
        = some (.done (.mk (.ValueLiteral [] []) .ReadingFieldFromSource)) ∧
      ∀ g, 1 ≤ g → nextField g (.mk (.ValueLiteral [] []) .ReadingFieldFromSource)
        = some (.done (.mk (.ValueLiteral [] []) .ReadingFieldFromSource))) ∧
    (seqNext ⟨⟨0, []⟩, 0, none⟩ = (none, ⟨⟨0, []⟩, 0, none⟩) ∧
      seqNext ⟨⟨0, []⟩, 0, none⟩ = (none, ⟨⟨0, []⟩, 0, none⟩)) := by
  refine ⟨⟨rfl, ?_⟩, ⟨rfl, ?_⟩⟩
  · exact c9_next_after_none_is_none.1 1 (mkIter (.ValueLiteral []))
      (.mk (.ValueLiteral [] []) .ReadingFieldFromSource) rfl
  · exact c9_next_after_none_is_none.2 ⟨⟨0, []⟩, 0, none⟩ ⟨⟨0, []⟩, 0, none⟩ rfl
      (fun _ => rfl)

/-- Claim C10: `PartialEq` on `ValueRef` (and `RawValueRef`) returns `false`
whenever either operand is a container variant — including a container
compared with itself, so the relation is not reflexive on containers — and
a comparison can only be `true` between scalar variants of the same kind
(scalars of the same kind can indeed compare equal). -/
theorem c10_value_ref_eq_false_on_containers :
    (∀ (M : ScalarModel) (v w : ValueRef M),
      (v.isContainer || w.isContainer) = true → ValueRef.eq v w = false) ∧
    (∀ (M : ScalarModel) (s : M.StructT),
      ValueRef.eq (.StructV s) (.StructV s) = false) ∧
    (∀ (M : ScalarModel) (v w : ValueRef M),
      ValueRef.eq v w = true → v.ionType = w.ionType ∧ v.isContainer = false) ∧
    (∀ (M : ScalarModel) (v w : RawValueRef M),
      (v.isContainer || w.isContainer) = true → RawValueRef.eq v w = false) ∧
    (∀ (M : ScalarModel) (s : M.StructT),
      RawValueRef.eq (.StructV s) (.StructV s) = false) ∧
    ValueRef.eq (M := unitScalarModel) (.IntV 1) (.IntV 1) = true := by
  refine ⟨?_, ?_, ?_, ?_, ?_, ?_⟩
  · intro M v w h
    cases v <;> cases w <;>
      simp_all [ValueRef.eq, ValueRef.isContainer]
  · intro M s
    rfl
  · intro M v w h
    cases v <;> cases w <;>
      simp_all [ValueRef.eq, ValueRef.isContainer, ValueRef.ionType]
  · intro M v w h
    cases v <;> cases w <;>
      simp_all [RawValueRef.eq, RawValueRef.isContainer]
  · intro M s
    rfl
  · rfl

theorem c10_witness :
    ((ValueRef.isContainer (M := unitScalarModel) (.StructV ()) ||
        ValueRef.isContainer (M := unitScalarModel) (.StructV ())) = true ∧
      ValueRef.eq (M := unitScalarModel) (.StructV ()) (.StructV ()) = false) ∧
    (RawValueRef.isContainer (M := unitScalarModel) (.ListV ()) = true ∧
      RawValueRef.eq (M := unitScalarModel) (.ListV ()) (.IntV 3) = false) := by
  refine ⟨⟨rfl, ?_⟩, ⟨rfl, ?_⟩⟩
  · exact c10_value_ref_eq_false_on_containers.1 unitScalarModel (.StructV ()) (.StructV ()) rfl
  · exact c10_value_ref_eq_false_on_containers.2.2.2.1 unitScalarModel
      (.ListV ()) (.IntV 3) rfl

/-- One `findScan` step over a plain name/value field: the field either
matches and is returned, or the scan continues past it. -/
theorem findScan_cons (f : Nat) (ev : MacroEvaluator) (n : String) (v : Value)
    (rest : List FieldExpr) (name : String) :
    findScan (f + 1) (.mk (.ValueLiteral ev (.NameValue n v :: rest)) .ReadingFieldFromSource)
        name =
      if n = name then some (.ok (some v))
      else findScan f (.mk (.ValueLiteral ev rest) .ReadingFieldFromSource) name := rfl

theorem findScan_nil (f : Nat) (ev : MacroEvaluator) (name : String) :
    findScan (f + 1) (.mk (.ValueLiteral ev []) .ReadingFieldFromSource) name =
      some (.ok none) := rfl

/-- Linear scan over a struct of plain name/value fields returns the first
field whose name matches, and `none` when no field matches. -/
theorem findScan_firstMatch (l : List Field) (name : String) :
    ∃ fuel, findScan fuel (.mk (.ValueLiteral [] (nvFields l)) .ReadingFieldFromSource) name =
      some (.ok (firstMatch l name)) := by
  induction l with
  | nil => exact ⟨1, rfl⟩
  | cons p l ih =>
    obtain ⟨f, hf⟩ := ih
    refine ⟨f + 1, ?_⟩
    rw [show nvFields (p :: l) = .NameValue p.1 p.2 :: nvFields l from rfl]
    rw [findScan_cons]
    by_cases hname : p.1 = name
    · rw [if_pos hname]
      simp [firstMatch, List.find?_cons_of_pos, hname]
    · rw [if_neg hname]
      rw [hf]
      simp [firstMatch, List.find?_cons_of_neg, hname]

/-- Claim C4: `find(name)` returns the first matching field's value.
For template-backed structs it consults the compiled field index: it answers
`none` immediately when the name is absent from the index, returns the first
candidate directly when it is a value literal (so with two fields literally
named "bar" it returns the first one's value, not the last), and for a macro
candidate evaluates just far enough to get one value. For other struct
sources it does a linear scan via the expanded-struct iterator, stopping at
the first match and answering `none` when no field matches. -/
theorem c4_find_returns_first_match :
    (∀ (fields : List FieldExpr) (name : String) (fuel : Nat),
      templateIndexGet fields name = [] →
      find fuel (.Template fields) name = some (.ok none)) ∧
    (∀ (fields : List FieldExpr) (name : String) (fuel : Nat) (v : Value)
        (rest : List ValueExpr),
      templateIndexGet fields name = .ValueLiteral v :: rest →
      find fuel (.Template fields) name = some (.ok (some v))) ∧
    (∀ (v1 v2 : Value) (fuel : Nat),
      find fuel (.Template [.NameValue "bar" v1, .NameValue "bar" v2]) "bar" =
        some (.ok (some v1))) ∧
    (∀ (fields : List FieldExpr) (name : String) (m : MacroInvocation)
        (rest : List ValueExpr) (v : Value) (vs : List Value),
      templateIndexGet fields name = .MacroInvocation m :: rest →
      invValues m = v :: vs →
      ∃ fuel, find fuel (.Template fields) name = some (.ok (some v))) ∧
    (∀ (l : List Field) (name : String),
      ∃ fuel, find fuel (.ValueLiteral (nvFields l)) name =
        some (.ok (firstMatch l name))) := by
  refine ⟨?_, ?_, ?_, ?_, ?_⟩
  · intro fields name fuel h
    simp [find, h]
  · intro fields name fuel v rest h
    simp [find, h]
  · intro v1 v2 fuel
    have h : templateIndexGet [.NameValue "bar" v1, .NameValue "bar" v2] "bar" =
        .ValueLiteral v1 :: [ValueExpr.ValueLiteral v2] := by
      simp [templateIndexGet]
    simp [find, h]
  · intro fields name m rest v vs h hm
    have hsv : stackValues [expand m] = v :: vs := by
      simp [stackValues, exprsValues_expand, hm]
    obtain ⟨f1, ev', h1, _, _⟩ := evalNext_of_stackValues_cons _ v vs hsv
    refine ⟨f1, ?_⟩
    simp [find, h, h1]
  · intro l name
    obtain ⟨f, hf⟩ := findScan_firstMatch l name
    refine ⟨f, ?_⟩
    simpa [find, mkIter] using hf

theorem c4_witness :
    (templateIndexGet [.NameValue "foo" (.int 1)] "bar" = [] ∧
      find 5 (.Template [.NameValue "foo" (.int 1)]) "bar" = some (.ok none)) ∧
    (templateIndexGet [.NameValue "bar" (.int 1), .NameValue "bar" (.int 2)] "bar" =
        [.ValueLiteral (.int 1), .ValueLiteral (.int 2)] ∧
      find 5 (.Template [.NameValue "bar" (.int 1), .NameValue "bar" (.int 2)]) "bar" =
        some (.ok (some (.int 1)))) := by
  refine ⟨⟨rfl, ?_⟩, ⟨rfl, ?_⟩⟩
  · exact c4_find_returns_first_match.1 [.NameValue "foo" (.int 1)] "bar" 5 rfl
  · exact c4_find_returns_first_match.2.1 [.NameValue "bar" (.int 1), .NameValue "bar" (.int 2)]
      "bar" 5 (.int 1) [ValueExpr.ValueLiteral (.int 2)] rfl

end IonRust
